import Mathlib

/-!
Verification of the econll chunk-tagging library core.

This file gives a shallow embedding, in Lean 4, of the functions of
`econll` that the specification's claims are about:

* `src/econll/parser.py`  -- tag parsing/merging, boundary-flag predicates,
  affix generation, scheme conversion, label/affix remapping;
* `src/econll/xcoder.py` and `src/econll/schemer.py` -- chunk expansion
  (`xcode`) and scheme altering (`alter`);
* `src/econll/tokens.py` -- the boc/eoc flag walk of `get_chunks`;
* `src/econll/spans.py`  -- `create_spans`, `align_spans`, `select_spans`,
  `align`, `group_spans`, `consolidate_spans`, `consolidate`;
* `src/econll/rebaser.py` -- `rebase_chunks` (with `xbase` modelled from the
  spec, since `econll/aligner.py` in the repository does not define it).

Conventions of the embedding:

* Python `str` is Lean `String`; a token label (`str | None`) is
  `Option String`.
* Python functions that can raise are embedded as `Option`-valued
  functions (`none` = exception); functions that cannot raise are plain.
* Python `dict` arguments are embedded as association lists, with
  `dict_get`/`dict_getD` playing the role of `dict.get`.
* Python `str.split(sep)` (for nonempty `sep`: leftmost, non-overlapping;
  raising for empty `sep`) is embedded by `py_split`.
-/

namespace Econll

abbrev Affix := String

abbrev Label := Option String

abbrev Pair := Label × Affix

/-- `dict.get(k)` on an association list. -/
def dict_get {α β : Type} [BEq α] (d : List (α × β)) (k : α) : Option β :=
  (d.find? (fun kv => kv.1 == k)).map (fun kv => kv.2)

/-- `dict.get(k, default)` on an association list. -/
def dict_getD {α β : Type} [BEq α] (d : List (α × β)) (k : α) (v : β) : β :=
  (dict_get d k).getD v

/-- Model of Python `str.split(sep)` scanning: accumulates the current piece
(in reverse) and cuts at each leftmost occurrence of `sep`.  The `fuel`
argument only drives the structural recursion; every step consumes at least
one character, so `fuel = s.length` is always enough. -/
def py_split_go (sep : List Char) : Nat → List Char → List Char →
    List (List Char)
  | 0, _, acc => [acc.reverse]
  | fuel + 1, s, acc =>
    if sep ≠ [] ∧ sep.isPrefixOf s then
      acc.reverse :: py_split_go sep fuel (s.drop sep.length) []
    else
      match s with
      | [] => [acc.reverse]
      | c :: rest => py_split_go sep fuel rest (c :: acc)

/-- Model of Python `str.split(sep)` for nonempty `sep`. -/
def py_split (s sep : String) : List String :=
  (py_split_go sep.data s.data.length s.data []).map (fun cs => String.mk cs)

/-- `parser.parse_tag`: parse a tag into a label-affix pair w.r.t. the tag
format; `none` embeds the exceptions (empty separator, or a split that does
not have exactly two parts for a non-outside tag). -/
def parse_tag (tag : String) (kind : String) (glue : String) (otag : String) :
    Option Pair :=
  if glue = "" then none
  else
    let parts := py_split tag glue
    let parts := if kind == "prefix" then parts else parts.reverse
    if tag == otag then some (none, otag)
    else
      match parts with
      | [affix, label] => some (some label, affix)
      | _ => none

/-- `parser.merge_tag`: merge a label-affix pair into a tag w.r.t. the tag
format; an absent label always yields the outside tag. -/
def merge_tag (label : Label) (affix : Affix)
    (kind : String) (glue : String) (otag : String) : String :=
  match label with
  | none => otag
  | some lbl =>
      if kind == "prefix" then affix ++ glue ++ lbl else lbl ++ glue ++ affix

/-- `parser.parse_tags`: element-wise `parse_tag`. -/
def parse_tags (data : List String)
    (kind : String) (glue : String) (otag : String) : Option (List Pair) :=
  data.mapM (fun tag => parse_tag tag kind glue otag)

/-- `parser.merge_tags`: element-wise `merge_tag`. -/
def merge_tags (data : List Pair)
    (kind : String) (glue : String) (otag : String) : List String :=
  data.map (fun la => merge_tag la.1 la.2 kind glue otag)

/-- `parser.isa_boc`: is a beginning of a chunk (Python's sequential
reassignments are embedded as or-accumulation). -/
def isa_boc (prev_label : Label) (prev_affix : Affix)
    (curr_label : Label) (curr_affix : Affix) : Bool :=
  let boc : Bool := false
  let boc : Bool := ((curr_affix == "B" || curr_affix == "S")) || boc
  let boc : Bool :=
    ((prev_affix == "E" || prev_affix == "S" || prev_affix == "O") &&
     (curr_affix == "I" || curr_affix == "E")) || boc
  let boc : Bool := (prev_label != curr_label && curr_affix != "O") || boc
  boc

/-- `parser.isa_eoc`: is an end of a chunk. -/
def isa_eoc (prev_label : Label) (prev_affix : Affix)
    (curr_label : Label) (curr_affix : Affix) : Bool :=
  let eoc : Bool := false
  let eoc : Bool := ((prev_affix == "E" || prev_affix == "S")) || eoc
  let eoc : Bool :=
    ((prev_affix == "B" || prev_affix == "I") &&
     (curr_affix == "B" || curr_affix == "S" || curr_affix == "O")) || eoc
  let eoc : Bool := (prev_label != curr_label && prev_affix != "O") || eoc
  eoc

/-- `parser.get_boc`: `pairwise([(None, "O")] + data)` mapped through
`isa_boc`. -/
def get_boc (data : List Pair) : List Bool :=
  (((none, "O") :: data).zip data).map
    (fun pc => isa_boc pc.1.1 pc.1.2 pc.2.1 pc.2.2)

/-- `parser.get_eoc`: `pairwise(data + [(None, "O")])` mapped through
`isa_eoc`. -/
def get_eoc (data : List Pair) : List Bool :=
  ((data ++ [((none : Label), "O")]).zip
    ((data ++ [((none : Label), "O")]).drop 1)).map
    (fun pc => isa_eoc pc.1.1 pc.1.2 pc.2.1 pc.2.2)

/-- `parser.relabel_token`: re-label a label-affix pair; the label map has
string keys (`dict[str, str | None]`), so an absent label is never remapped. -/
def relabel_token (label : Label) (affix : Affix)
    (labels : List (String × Label)) (otag : String) : Pair :=
  let new_label : Label :=
    match label with
    | none => none
    | some lbl => (dict_get labels lbl).getD (some lbl)
  let new_affix : Affix := if new_label == none then otag else affix
  (new_label, new_affix)

/-- `parser.reaffix_token`: re-affix a label-affix pair. -/
def reaffix_token (label : Label) (affix : Affix)
    (morphs : List (Affix × Affix)) (otag : String) : Pair :=
  (label, if label == none then otag else dict_getD morphs affix affix)

/-- `parser.relabel`: element-wise `relabel_token`. -/
def relabel (tokens : List Pair) (labels : List (String × Label))
    (otag : String) : List Pair :=
  tokens.map (fun la => relabel_token la.1 la.2 labels otag)

/-- `parser.reaffix`: element-wise `reaffix_token`. -/
def reaffix (tokens : List Pair) (morphs : List (Affix × Affix))
    (otag : String) : List Pair :=
  tokens.map (fun la => reaffix_token la.1 la.2 morphs otag)

/-- The `schemes` table of `parser.get_scheme`. -/
def schemes_table : List (String × List (Affix × Affix)) :=
  [("IO",    [("I", "I"), ("O", "O"), ("B", "I"), ("E", "I"), ("S", "I")]),
   ("IOB",   [("I", "I"), ("O", "O"), ("B", "B"), ("E", "I"), ("S", "B")]),
   ("IOE",   [("I", "I"), ("O", "O"), ("B", "I"), ("E", "E"), ("S", "E")]),
   ("IOBE",  [("I", "I"), ("O", "O"), ("B", "B"), ("E", "E"), ("S", "B")]),
   ("IOBES", [("I", "I"), ("O", "O"), ("B", "B"), ("E", "E"), ("S", "S")])]

/-- `parser.get_scheme`: the affix mapping of a supported scheme; `none`
embeds the `Unsupported Scheme` exception. -/
def get_scheme (scheme : String) : Option (List (Affix × Affix)) :=
  dict_get schemes_table scheme

/-- `parser.get_affix`: an affix through a scheme mapping (`none` covers both
the unsupported-scheme exception and a missing key, which Python returns as
the value `None`). -/
def get_affix (affix : String) (scheme : String) : Option String :=
  (get_scheme scheme).bind (fun m => dict_get m affix)

/-- The canonical (IOBES) affix computed by the conditional expression of
`parser.gen_affix` from the label and the boc/eoc flags. -/
def canon_affix (label : Label) (boc : Bool) (eoc : Bool) : String :=
  if label == none then "O"
  else if boc && !eoc then "B"
  else if !boc && eoc then "E"
  else if boc && eoc then "S"
  else "I"

/-- `parser.gen_affix`: generate an affix from the label and the boc/eoc
flags, mapped through the target scheme. -/
def gen_affix (label : Label) (boc : Bool) (eoc : Bool) (scheme : String) :
    Option Affix :=
  get_affix (canon_affix label boc eoc) scheme

/-- `parser.isa_coc`: is a change of chunk (both boc and eoc, with an
optional same-label requirement). -/
def isa_coc (prev_label : Label) (prev_affix : Affix)
    (curr_label : Label) (curr_affix : Affix) (same_label : Bool) : Bool :=
  let boc := isa_boc prev_label prev_affix curr_label curr_affix
  let eoc := isa_eoc prev_label prev_affix curr_label curr_affix
  let lbl := if same_label then prev_label == curr_label else true
  boc && eoc && lbl

/-- `parser.get_coc_boc`: `[False]` then `isa_coc` over adjacent pairs. -/
def get_coc_boc (data : List Pair) (same_label : Bool) : List Bool :=
  false :: (data.zip (data.drop 1)).map
    (fun pc => isa_coc pc.1.1 pc.1.2 pc.2.1 pc.2.2 same_label)

/-- `parser.get_coc_eoc`: `isa_coc` over adjacent pairs, then `[False]`. -/
def get_coc_eoc (data : List Pair) (same_label : Bool) : List Bool :=
  (data.zip (data.drop 1)).map
    (fun pc => isa_coc pc.1.1 pc.1.2 pc.2.1 pc.2.2 same_label) ++ [false]

/-- The `maps = {"IOB1": "IOB", "IOE1": "IOE"}` dictionary of
`parser.convert`. -/
def coc_maps : List (String × String) := [("IOB1", "IOB"), ("IOE1", "IOE")]

/-- Zip of three equal-length lists (Python `zip(a, b, c)`). -/
def zip3 {α β γ : Type} (a : List α) (b : List β) (c : List γ) :
    List (α × β × γ) :=
  a.zip (b.zip c)

/-- `parser.convert`: convert token affixes to the target scheme by
re-generating every affix from the boc/eoc flags, with the IOB1/IOE1
change-of-chunk post-processing. -/
def convert (tokens : List Pair) (scheme : String) (labels : Bool) :
    Option (List Pair) := do
  let base := dict_getD coc_maps scheme scheme
  let outs ← (zip3 (get_boc tokens) (get_eoc tokens) tokens).mapM
    (fun x => (gen_affix x.2.2.1 x.1 x.2.1 base).map (fun a => (x.2.2.1, a)))
  let outs :=
    if scheme == "IOB1" then
      ((get_coc_boc tokens labels).zip outs).map
        (fun bla => (bla.2.1,
          if bla.2.2 == "B" && bla.1 == false then "I" else bla.2.2))
    else outs
  let outs :=
    if scheme == "IOE1" then
      ((get_coc_eoc tokens labels).zip outs).map
        (fun ela => (ela.2.1,
          if ela.2.2 == "E" && ela.1 == false then "I" else ela.2.2))
    else outs
  return outs

/-- `parser.check_affix`: all affixes must be from IOBES (`none` embeds the
exception). -/
def check_affix (data : List String) : Option Unit :=
  if data.all (fun a =>
      a == "I" || a == "O" || a == "B" || a == "E" || a == "S")
  then some () else none

/-- `parser.check_scheme`: `zip(*data)` raises on an empty list (it cannot be
unpacked into two lists); otherwise all affixes must be from IOBES. -/
def check_scheme (data : List Pair) : Option Unit :=
  match data with
  | [] => none
  | _ => check_affix (data.map (fun la => la.2))

/-- `parser.check_morphs`: the values of an affix map must be from IOBES. -/
def check_morphs (morphs : List (Affix × Affix)) : Option Unit :=
  check_affix (morphs.map (fun kv => kv.2))

/-- `parser.parse`: parse tags into label-affix pairs, with optional label
substitution, affix substitution, and scheme conversion.  The tag-format
kwargs reach only `parse_tags`; `relabel`/`reaffix`/`convert` run with their
defaults (`otag = "O"`, `labels = True`). -/
def parse (data : List String)
    (labels : Option (List (String × Label)))
    (morphs : Option (List (Affix × Affix)))
    (scheme : Option String)
    (kind : String) (glue : String) (otag : String) : Option (List Pair) := do
  let pairs ← parse_tags data kind glue otag
  match morphs with
  | none => check_scheme pairs
  | some m => check_morphs m
  let pairs := match labels with
    | none => pairs
    | some l => relabel pairs l "O"
  let pairs := match morphs with
    | none => pairs
    | some m => reaffix pairs m "O"
  let pairs ← match scheme with
    | none => pure pairs
    | some s => convert pairs s true
  return pairs

/-- `parser.merge`: merge label-affix pairs into tags, with optional label
substitution, scheme conversion, and affix substitution. -/
def merge (tokens : List Pair)
    (labels : Option (List (String × Label)))
    (morphs : Option (List (Affix × Affix)))
    (scheme : Option String)
    (kind : String) (glue : String) (otag : String) : Option (List String) := do
  let pairs := tokens
  let pairs := match labels with
    | none => pairs
    | some l => relabel pairs l "O"
  let pairs ← match scheme with
    | none => pure pairs
    | some s => convert pairs s true
  let pairs := match morphs with
    | none => pairs
    | some m => reaffix pairs m "O"
  return merge_tags pairs kind glue otag

/-! Proof-side helpers: a total description of the scheme tables, and
indexing lemmas for the flag lists. -/

/-- The scheme names supported by `get_scheme` (conversion targets). -/
def supported_schemes : List String := ["IO", "IOB", "IOE", "IOBE", "IOBES"]

/-- The canonical IOBES affixes. -/
def iobes_list : List String := ["I", "O", "B", "E", "S"]

/-- Total description of the scheme tables of `get_scheme`; agrees with
`get_affix` on supported schemes and canonical affixes. -/
def scheme_fn (scheme a : String) : String :=
  if scheme == "IO" then (if a == "O" then "O" else "I")
  else if scheme == "IOB" then
    (if a == "O" then "O" else if a == "B" || a == "S" then "B" else "I")
  else if scheme == "IOE" then
    (if a == "O" then "O" else if a == "E" || a == "S" then "E" else "I")
  else if scheme == "IOBE" then
    (if a == "O" then "O" else if a == "B" || a == "S" then "B"
     else if a == "E" then "E" else "I")
  else a

def vout : Pair := ((none : Label), "O")


def convert_core (tokens : List Pair) (scheme : String) : List Pair :=
  (zip3 (get_boc tokens) (get_eoc tokens) tokens).map
    (fun x => (x.2.2.1, scheme_fn scheme (canon_affix x.2.2.1 x.1 x.2.1)))


/-! Spans and the consolidator (`decisor.py` / `spans.py`). -/

abbrev Span := Int × Int

/-- Stable insertion of `a` into `l`: `a` goes after every element `b` with
`le b a`.  Used to model Python's stable `sorted`. -/
def py_insort {α : Type} (le : α → α → Bool) (a : α) : List α → List α
  | [] => [a]
  | b :: l => if le b a then b :: py_insort le a l else a :: b :: l

/-- Model of Python's stable `sorted(l, key=...)` as insertion sort; for the
rows sorted by `consolidate_spans` all keys are distinct (they embed the
negated input index), so any correct sort produces Python's output. -/
def py_sorted {α : Type} (le : α → α → Bool) (l : List α) : List α :=
  l.foldr (py_insort le) []

/-- Lexicographic comparison of equal-length integer lists: the order Python
uses on the row tuples of `consolidate_spans` (`sorted(..., reverse=True)` is
`py_sorted` with the arguments flipped). -/
def int_list_le : List Int → List Int → Bool
  | [], _ => true
  | _ :: _, [] => false
  | a :: as, b :: bs =>
      if a < b then true else if b < a then false else int_list_le as bs

/-- `*_, max_idx, (max_bos, max_eos) = items[0]` of `consolidate_spans`: the
negated input index sits two before the end of the flattened row. -/
def row_idx (r : List Int) : Int := r.getD (r.length - 3) 0

/-- The span begin of a flattened row. -/
def row_bos (r : List Int) : Int := r.getD (r.length - 2) 0

/-- The span end of a flattened row. -/
def row_eos (r : List Int) : Int := r.getD (r.length - 1) 0

/-- The discard condition of `decisor.consolidate_spans`'s loop:
`max_bos <= bos < max_eos or max_bos < eos <= max_eos`. -/
def row_drop (top r : List Int) : Bool :=
  (decide (row_bos top ≤ row_bos r) && decide (row_bos r < row_eos top)) ||
  (decide (row_bos top < row_eos r) && decide (row_eos r ≤ row_eos top))

/-- The `while items` loop of `decisor.consolidate_spans`: take the head row,
record its input index, and drop every remaining row whose begin or end falls
inside the taken span.  `fuel = items.length` drives the recursion. -/
def consolidate_loop (fuel : Nat) (items : List (List Int)) : List Int :=
  match fuel, items with
  | _, [] => []
  | 0, _ :: _ => []
  | fuel + 1, top :: rest =>
      (-(row_idx top)) :: consolidate_loop fuel
        (rest.filter (fun r => !(row_drop top r)))

/-- `decisor.consolidate_spans`: reduce spans to a non-overlapping group by
greedy selection in descending row order.  Rows are the Python tuples
`(*scores_i, -i, span_i)` flattened into integer lists (flattening preserves
tuple comparison); `none` embeds the `strict=True` zip length mismatch. -/
def consolidate_spans (spans : List Span) (scores : List (List Int)) :
    Option (List Int) :=
  let scores := if scores.isEmpty then [spans.map (fun s => s.2 - s.1)]
    else scores
  let scores := scores ++
    [(List.range spans.length).map (fun (i : Nat) => -(i : Int))]
  if scores.all (fun s => s.length == spans.length) then
    let items := (List.range spans.length).map
      (fun i => scores.map (fun s => s.getD i 0) ++
        [(spans.getD i (0, 0)).1, (spans.getD i (0, 0)).2])
    let items := py_sorted (fun x y => int_list_le y x) items
    some (py_sorted (fun a b => decide (a ≤ b))
      (consolidate_loop items.length items))
  else none

/-- `decisor.consolidate`: the keyword wrapper assembling the criteria in the
order priority > score > length. -/
def consolidate (spans : List Span) (scores : Option (List Int))
    (priors : Option (List Int)) (length : Bool) : Option (List Int) :=
  let criteria : List (List Int) :=
    if length == false then [] else [spans.map (fun s => s.2 - s.1)]
  let criteria := match scores with
    | none => criteria
    | some s => [s] ++ criteria
  let criteria := match priors with
    | none => criteria
    | some p => [p] ++ criteria
  consolidate_spans spans criteria

/-- The sort key of `group_spans`: Python's stable `sorted` by
`(begin, -end)`.  Equal keys force equal spans, so any key-correct sort
produces Python's list. -/
def span_key_le (a b : Span) : Bool :=
  decide (a.1 < b.1) || (decide (a.1 = b.1) && decide (b.2 ≤ a.2))

/-- The sorted view of the input spans that `group_spans` enumerates. -/
def sorted_spans (spans : List Span) : List Span :=
  py_sorted span_key_le spans

/-- One step of the `for idx, (bos, eos) in enumerate(sorted(spans, ...))`
loop of `decisor.group_spans`: extend the first group whose interval the
span touches (the `for ... break` over `groups`), else open a new group
(the `else` of the `for`). -/
def insert_span (groups : List (Int × Int × List Nat)) (idx : Nat)
    (bos eos : Int) : List (Int × Int × List Nat) :=
  match groups with
  | [] => [(bos, eos, [idx])]
  | (bog, eog, group) :: rest =>
      if (decide (bog ≤ bos) && decide (bos < eog)) ||
         (decide (bog < eos) && decide (eos ≤ eog)) then
        (min bog bos, max eog eos, group ++ [idx]) :: rest
      else (bog, eog, group) :: insert_span rest idx bos eos

/-- `decisor.group_spans` (the identical function also lives in
`spans.py`): group spans w.r.t. overlaps; the returned index groups refer
to positions in the `(begin, -end)`-sorted order. -/
def group_spans (spans : List Span) : List (List Nat) :=
  ((sorted_spans spans).enum.foldl
    (fun groups ie => insert_span groups ie.1 ie.2.1 ie.2.2) []).map
    (fun g => g.2.2)

/-- Overlap of two half-open integer spans (non-disjoint intersection;
touching at a single boundary point is not overlap). -/
def overlaps (s t : Span) : Prop := max s.1 t.1 < min s.2 t.2

/-- Connectivity by a chain of pairwise-overlapping spans, on positions of
the sorted order. -/
def conn (spans : List Span) (i j : Nat) : Prop :=
  Relation.ReflTransGen
    (fun a b => overlaps ((sorted_spans spans).getD a (0, 0))
      ((sorted_spans spans).getD b (0, 0))) i j

/-- The rows `consolidate_spans` builds under the default criteria
(length tie-break only): `[length, -i, begin, end]` for each input index. -/
def default_rows (spans : List Span) : List (List Int) :=
  (List.range spans.length).map
    (fun i => [(spans.getD i (0, 0)).2 - (spans.getD i (0, 0)).1, -(i : Int),
               (spans.getD i (0, 0)).1, (spans.getD i (0, 0)).2])

/-- The shape of a `consolidate_spans` row under the default criteria
(length tie-break only): `[length, -i, begin, end]` for input index `i`. -/
def row_ok (spans : List Span) (r : List Int) : Prop :=
  ∃ i, i < spans.length ∧
    r = [(spans.getD i (0, 0)).2 - (spans.getD i (0, 0)).1, -(i : Int),
         (spans.getD i (0, 0)).1, (spans.getD i (0, 0)).2]

/-- The extension condition of `insert_span`, named: the span `[bos, eos)`
touches the group envelope `[g.1, g.2.1)`. -/
def touches (bos eos : Int) (g : Int × Int × List Nat) : Bool :=
  (decide (g.1 ≤ bos) && decide (bos < g.2.1)) ||
  (decide (g.1 < eos) && decide (eos ≤ g.2.1))

/-- Invariant of the `group_spans` folding loop after the first `k` spans of
the sorted list `s` have been inserted: the groups partition `0..k-1`, each
group's envelope bounds its members' spans with the upper end attained, the
envelopes are chained left to right, and members of a group are pairwise
connected by overlap chains. -/
structure GInv (s : List Span) (k : Nat)
    (groups : List (Int × Int × List Nat)) : Prop where
  perm : (groups.map (fun g => g.2.2)).flatten.Perm (List.range k)
  mem_lt : ∀ g ∈ groups, ∀ i ∈ g.2.2, i < k
  wf : ∀ g ∈ groups, g.1 < g.2.1
  bound : ∀ g ∈ groups, ∀ i ∈ g.2.2,
    g.1 ≤ (s.getD i (0, 0)).1 ∧ (s.getD i (0, 0)).2 ≤ g.2.1
  maxw : ∀ g ∈ groups, ∃ i ∈ g.2.2, (s.getD i (0, 0)).2 = g.2.1
  chain : groups.Pairwise (fun g g' => g.2.1 ≤ g'.1)
  connw : ∀ g ∈ groups, ∀ i ∈ g.2.2, ∀ j ∈ g.2.2,
    Relation.ReflTransGen
      (fun a b => overlaps (s.getD a (0, 0)) (s.getD b (0, 0))) i j

/-- Python's `str.index(sub, start)` on character lists: the first position
`i ≥ start` where `sub` occurs as a substring (an empty `sub` matches at
`start`); `none` models the `ValueError` when there is no occurrence. -/
def py_str_index (text tok : List Char) (start : Nat) : Option Nat :=
  (List.range (text.length + 1)).find?
    (fun i => decide (start ≤ i) && decide (i + tok.length ≤ text.length) &&
      decide ((text.drop i).take tok.length = tok))

/-- The indexing loop of `spans.create_spans`: locate each token from the
running pointer and emit its character span. -/
def create_spans_go : List (List Char) → List Char → Nat → Option (List Span)
  | [], _, _ => some []
  | tok :: rest, text, p =>
      match py_str_index text tok p with
      | none => none
      | some idx =>
          (create_spans_go rest text (idx + tok.length)).map
            (fun l => (((idx : Int), ((idx + tok.length : Nat) : Int)) :: l))

/-- `spans.check_text` as invoked by `create_spans` inside `align`: the text
is a string (whitespace is discarded by `str.split`), the tokens are a list
(joined verbatim). -/
def check_text_str_list (text : String) (tokens : List String) : Bool :=
  decide ((text.data.filter (fun c => !c.isWhitespace)) =
    (tokens.map String.data).flatten)

/-- `spans.create_spans`: check the text, then index every token. -/
def create_spans (tokens : List String) (text : String) : Option (List Span) :=
  if check_text_str_list text tokens then
    create_spans_go (tokens.map String.data) text.data 0
  else none

/-- Python's `min` over a non-empty list (the empty case never arises in
`align_spans`, which guards non-emptiness). -/
def py_min (l : List Int) : Int :=
  match l with
  | [] => 0
  | x :: xs => xs.foldl min x

/-- Python's `max` over a non-empty list. -/
def py_max (l : List Int) : Int :=
  match l with
  | [] => 0
  | x :: xs => xs.foldl max x

/-- Python's `sorted(list(set(a).intersection(set(b))))`: the ascending list
of the distinct common elements. -/
def sorted_inter (a b : List Int) : List Int :=
  py_sorted (fun x y => decide (x ≤ y)) ((a.filter (fun x => b.contains x)).dedup)

/-- `spans.align_spans`: shared begin/end boundaries of two span lists over
the same text; `none` embeds the `ValueError` raises (empty unpack, distinct
extents, strict zip length mismatch). -/
def align_spans (source target : List Span) : Option (List Span) :=
  if source = target then some source
  else if source.isEmpty || target.isEmpty then none
  else
    let src_bos := source.map (fun x => x.1)
    let src_eos := source.map (fun x => x.2)
    let tgt_bos := target.map (fun x => x.1)
    let tgt_eos := target.map (fun x => x.2)
    if (py_min src_bos != py_min tgt_bos) ||
       (py_max src_eos != py_max tgt_eos) then none
    else
      let shared_bos := sorted_inter src_bos tgt_bos
      let shared_eos := sorted_inter src_eos tgt_eos
      if shared_bos.length == shared_eos.length then
        some (shared_bos.zip shared_eos)
      else none

/-- `spans.select_spans`: indices of the spans lying inside `[bos, eos]`. -/
def select_spans (spans : List Span) (bos eos : Int) : List Nat :=
  (spans.enum.filter
    (fun ie => decide (bos ≤ ie.2.1) && decide (ie.2.2 ≤ eos))).map
    (fun ie => ie.1)

/-- `spans.align` on the list/list/text code path, transcribed faithfully:
both asserts are kept verbatim, in particular the second one compares
`len(target)` against the summed cell sizes of `src_index` (not
`tgt_index`), exactly as the source does. -/
def align_lists (source target : List String) (text : String) :
    Option (List (List Nat × List Nat)) :=
  if source = target then
    some ((List.range source.length).map (fun i => ([i], [i])))
  else
    match create_spans source text, create_spans target text with
    | some src_spans, some tgt_spans =>
        match align_spans src_spans tgt_spans with
        | some aln_spans =>
            let src_index := aln_spans.map
              (fun be => select_spans src_spans be.1 be.2)
            let tgt_index := aln_spans.map
              (fun be => select_spans tgt_spans be.1 be.2)
            if (source.length == (src_index.map List.length).sum) &&
               (target.length == (src_index.map List.length).sum) then
              some (src_index.zip tgt_index)
            else none
        | none => none
    | _, _ => none

/-- Python's `min` over a non-empty list of naturals. -/
def py_min_nat (l : List Nat) : Nat :=
  match l with
  | [] => 0
  | x :: xs => xs.foldl min x

/-- Python's `max` over a non-empty list of naturals. -/
def py_max_nat (l : List Nat) : Nat :=
  match l with
  | [] => 0
  | x :: xs => xs.foldl max x

/-- Modelled from the spec: `crossBase(alignment) -> (beginMap, endMap)`
(spec §4.4) - `rebaser.py` imports the symbol `xbase` from `econll.aligner`,
which does not define it in the repository snapshot, so the two lookup
dictionaries are reconstructed from the spec's description: `beginMap` sends
each alignment cell's least target index to the cell's least source index,
and `endMap` sends each cell's greatest target index + 1 to the cell's
greatest source index + 1 (token-span end convention).  The association
lists are reversed so that the first match corresponds to Python's
last-write-wins dict construction.  On `test_rebaser.py`'s alignment this
yields begin map {0:0, 2:2, 4:3, 5:5} and end map {2:2, 4:3, 5:5, 6:6},
reproducing the expected `rebase_chunks` output. -/
def xbase (alignment : List (List Nat × List Nat)) :
    List (Nat × Nat) × List (Nat × Nat) :=
  ((alignment.map (fun c => (py_min_nat c.2, py_min_nat c.1))).reverse,
   (alignment.map (fun c => (py_max_nat c.2 + 1, py_max_nat c.1 + 1))).reverse)

/-- `rebaser.rebase_chunks`: the first component is the list the Python code
reports in its `warn` message (chunks whose begin or end token index has no
counterpart in the cross-base maps), the second the returned rebased chunk
list; the function never raises. -/
def rebase_chunks (chunks : List (String × Nat × Nat))
    (alignment : List (List Nat × List Nat)) :
    List (String × Nat × Nat) × List (String × Nat × Nat) :=
  let bos := (xbase alignment).1
  let eos := (xbase alignment).2
  let keep := fun (c : String × Nat × Nat) =>
    (dict_get bos c.2.1).isSome && (dict_get eos c.2.2).isSome
  (chunks.filter (fun c => !(keep c)),
   (chunks.filter keep).map
     (fun c => (c.1, dict_getD bos c.2.1 0, dict_getD eos c.2.2 0)))

/-- `tokens.is_boc`, with the outside tag as a parameter; the argument order
(curr before prev) follows the Python source. -/
def is_boc_tok (curr_label : Label) (curr_affix : Affix)
    (prev_label : Label) (prev_affix : Affix) (otag : String) : Bool :=
  let boc : Bool := false
  let boc : Bool := ((curr_affix == "B" || curr_affix == "S")) || boc
  let boc : Bool :=
    ((prev_affix == "E" || prev_affix == "S" || prev_affix == otag) &&
     (curr_affix == "I" || curr_affix == "E")) || boc
  let boc : Bool := (prev_label != curr_label && curr_affix != otag) || boc
  boc

/-- `tokens.is_eoc`, with the outside tag as a parameter. -/
def is_eoc_tok (curr_label : Label) (curr_affix : Affix)
    (prev_label : Label) (prev_affix : Affix) (otag : String) : Bool :=
  let eoc : Bool := false
  let eoc : Bool := ((prev_affix == "E" || prev_affix == "S")) || eoc
  let eoc : Bool :=
    ((prev_affix == "B" || prev_affix == "I") &&
     (curr_affix == "B" || curr_affix == "S" || curr_affix == otag)) || eoc
  let eoc : Bool := (prev_label != curr_label && prev_affix != otag) || eoc
  eoc

/-- The per-token boc flags `tokens.annotate` assigns to a single block with
the default outside tag: token j is compared with token j-1 (a virtual
outside token for j = 0). -/
def annotate_boc (data : List Pair) : List Bool :=
  ((vout :: data).zip data).map
    (fun pc => is_boc_tok pc.2.1 pc.2.2 pc.1.1 pc.1.2 "O")

/-- The per-token eoc flags `tokens.annotate` assigns to a single block with
the default outside tag: position j < n-1 receives the flag the j+1 step
computes between tokens j and j+1; the last position receives
`affix != otag` (the `eob` rule; the False that the j = 0 step writes at
index -1 survives exactly when the last affix is the outside tag, which
that rule already yields). -/
def annotate_eoc (data : List Pair) : List Bool :=
  match data with
  | [] => []
  | _ :: _ =>
      (data.zip (data.drop 1)).map
        (fun pc => is_eoc_tok pc.2.1 pc.2.2 pc.1.1 pc.1.2 "O") ++
      [(data.getLastD vout).2 != "O"]

/-- The walk of `tokens.get_chunks` over one annotated block: `j` is the
token position, `b` the running `boc` variable. -/
def get_chunks_go : Nat → Nat → List (Pair × Bool × Bool) →
    List (Label × Nat × Nat)
  | _, _, [] => []
  | j, b, (p, boc, eoc) :: rest =>
      if boc && eoc then (p.1, j, j + 1) :: get_chunks_go (j + 1) b rest
      else if boc && !eoc then get_chunks_go (j + 1) j rest
      else if eoc && !boc then (p.1, b, j + 1) :: get_chunks_go (j + 1) b rest
      else get_chunks_go (j + 1) b rest

/-- `tokens.get_chunks` on a single block of label-affix pairs (the block
index of the `Chunk` record is dropped; chunks are `(label, bos, eos)`). -/
def get_chunks (data : List Pair) : List (Label × Nat × Nat) :=
  get_chunks_go 0 0 (zip3 data (annotate_boc data) (annotate_eoc data))

/-- `xcoder.affix_chunk`: the IOBES affixes of a chunk of a given length. -/
def affix_chunk (n : Nat) : List String :=
  if n < 1 then []
  else if n == 1 then ["S"]
  else "B" :: (List.replicate (n - 2) "I" ++ ["E"])

/-- `xcoder.token_chunk`: the label-affix pairs of a chunk. -/
def token_chunk (label : Label) (bos eos : Nat) : List Pair :=
  (List.replicate (eos - bos) label).zip (affix_chunk (eos - bos))

/-- The chunk-splicing loop of `xcode`:
`tokens = tokens[0:bos] + token_chunk(label, bos, eos) + tokens[eos:]`. -/
def splice_fold (chunks : List (Label × Nat × Nat)) (L : List Pair) :
    List Pair :=
  chunks.foldl
    (fun t c => t.take c.2.1 ++ token_chunk c.1 c.2.1 c.2.2 ++ t.drop c.2.2) L

/-- The `morphs` dictionary `alter` builds: the boc/eoc/has-label triple of
each canonical affix, mapped to the scheme table's image of that affix. -/
def morphs_of (table : List (Affix × Affix)) :
    List ((Bool × Bool × Bool) × Affix) :=
  [((false, false, true), dict_getD table "I" "I"),
   ((false, false, false), dict_getD table "O" "O"),
   ((true, false, true), dict_getD table "B" "B"),
   ((false, true, true), dict_getD table "E" "E"),
   ((true, true, true), dict_getD table "S" "S")]

/-- `schemer.alter` on label-affix pairs.  The scheme table is the same as
`parser.get_scheme`'s; `morphs` keys are the boc/eoc/has-label triples.  An
empty input raises: `all(isinstance(x, str))` holds vacuously, so `alter`
calls `parse([])`, which fails in `check_scheme` (claim C10); `none` also
embeds the unsupported-scheme raise. -/
def alter (data : List Pair) (scheme : String) : Option (List Pair) :=
  let coding := scheme
  let scheme :=
    if scheme.data.getLast? == some (Char.ofNat 49) then
      String.mk scheme.data.dropLast
    else scheme
  match get_scheme scheme with
  | none => none
  | some table =>
      match data with
      | [] => none
      | _ :: _ =>
          let toks := (zip3 data (get_boc data) (get_eoc data)).map
            (fun x => (x.1.1,
              dict_getD (morphs_of table) (x.2.1, x.2.2, x.1.1.isSome) x.1.2))
          let toks :=
            if coding == "IOB1" then
              (toks.zip (get_coc_boc toks true)).map
                (fun tb => (tb.1.1,
                  if tb.1.2 == "B" && tb.2 == false then "I" else tb.1.2))
            else toks
          let toks :=
            if coding == "IOE1" then
              (toks.zip (get_coc_eoc toks true)).map
                (fun te => (te.1.1,
                  if te.1.2 == "E" && te.2 == false then "I" else te.1.2))
            else toks
          some toks

/-- `xcoder.xcode`: expand chunks over a fresh outside sequence, then alter
to the target scheme; `length or max(...)` makes a given length of 0 fall
back to the greatest chunk end. -/
def xcode (chunks : List (Label × Nat × Nat)) (length : Option Nat)
    (scheme : String) : Option (List Pair) :=
  let n := match length with
    | none => py_max_nat ((chunks.map (fun c => c.2.2)) ++ [0])
    | some l =>
        if l == 0 then py_max_nat ((chunks.map (fun c => c.2.2)) ++ [0])
        else l
  let toks := splice_fold chunks (List.replicate n vout)
  if scheme == "IOBES" then some toks else alter toks scheme

/-- The validity invariant of a label-affix pair (what `Token.__post_init__`
enforces): label absence coupled to the outside affix, affix from IOBES. -/
def valid_pair (p : Pair) : Prop :=
  ((p.1 = none) ↔ (p.2 = "O")) ∧ p.2 ∈ iobes_list

/-- The pair at position `i` (the virtual outside pair out of range). -/
def pos_pair (seq : List Pair) (i : Nat) : Pair := seq.getD i vout

/-- The boc flag at position `i`. -/
def pos_boc (seq : List Pair) (i : Nat) : Bool := (get_boc seq).getD i false

/-- The eoc flag at position `i`. -/
def pos_eoc (seq : List Pair) (i : Nat) : Bool := (get_eoc seq).getD i false

-- [end of definitions region: claim-specific definitions are inserted above]

end Econll

namespace Econll

theorem canon_affix_mem (l : Label) (b e : Bool) :
    canon_affix l b e ∈ iobes_list := by
  by_cases h : l = none
  · simp [canon_affix, h, iobes_list]
  · cases b <;> cases e <;> simp [canon_affix, h, iobes_list]

theorem get_affix_supported (s : String) (hs : s ∈ supported_schemes)
    (a : String) (ha : a ∈ iobes_list) :
    get_affix a s = some (scheme_fn s a) := by
  fin_cases hs <;> fin_cases ha <;> rfl

theorem gen_affix_supported (l : Label) (b e : Bool) (s : String)
    (hs : s ∈ supported_schemes) :
    gen_affix l b e s = some (scheme_fn s (canon_affix l b e)) :=
  get_affix_supported s hs _ (canon_affix_mem l b e)

theorem mapM_eq_map {α β : Type} (f : α → Option β) (g : α → β) (l : List α)
    (h : ∀ x ∈ l, f x = some (g x)) : l.mapM f = some (l.map g) := by
  induction l with
  | nil => rfl
  | cons a tl ih =>
      rw [List.mapM_cons, h a (List.mem_cons_self a tl),
        ih (fun x hx => h x (List.mem_cons_of_mem a hx))]
      rfl

/-- The virtual outside neighbor. -/
theorem get_boc_length (data : List Pair) :
    (get_boc data).length = data.length := by
  simp [get_boc]

theorem get_eoc_length (data : List Pair) :
    (get_eoc data).length = data.length := by
  simp [get_eoc]

theorem get_boc_getElem (data : List Pair) (j : Nat)
    (hj : j < (get_boc data).length) (hjd : j < data.length) :
    (get_boc data)[j] =
      isa_boc (if j = 0 then vout else data.getD (j - 1) vout).1
              (if j = 0 then vout else data.getD (j - 1) vout).2
              (data[j]).1 (data[j]).2 := by
  unfold get_boc
  rw [List.getElem_map, List.getElem_zip]
  cases j with
  | zero => rfl
  | succ i =>
      have hi : i < data.length := by omega
      have hgd : data.getD (i + 1 - 1) vout = data[i] := by
        rw [Nat.add_sub_cancel]
        exact List.getD_eq_getElem data vout hi
      rw [if_neg (by omega), hgd, List.getElem_cons_succ]

theorem get_eoc_getElem (data : List Pair) (j : Nat)
    (hj : j < (get_eoc data).length) (hjd : j < data.length) :
    (get_eoc data)[j] =
      isa_eoc (data[j]).1 (data[j]).2
              (data.getD (j + 1) vout).1 (data.getD (j + 1) vout).2 := by
  unfold get_eoc
  rw [List.getElem_map, List.getElem_zip]
  have hbj : j < (data ++ [((none : Label), "O")]).length := by
    simp
    omega
  have hb1j : 1 + j < (data ++ [((none : Label), "O")]).length := by
    simp
    omega
  have hdj : j < ((data ++ [((none : Label), "O")]).drop 1).length := by
    simp
    omega
  have hsing : ∀ k : Nat, k = 0 → k < [((none : Label), "O")].length := by
    intro k hk
    simp [hk]
  have h1 : (data ++ [((none : Label), "O")])[j] = data[j] :=
    List.getElem_append_left hjd
  have h2 : ((data ++ [((none : Label), "O")]).drop 1)[j] =
      (data ++ [((none : Label), "O")])[1 + j] := List.getElem_drop _
  rw [h1, h2]
  by_cases hlt : j + 1 < data.length
  · have h3 : (data ++ [((none : Label), "O")])[1 + j] = data[1 + j] :=
      List.getElem_append_left (by omega)
    rw [h3]
    have h4 : data.getD (j + 1) vout = data[j + 1] :=
      List.getD_eq_getElem data vout hlt
    rw [h4]
    have h5 : ∀ h1j : 1 + j < data.length,
        data[1 + j] = data[j + 1] := by
      intro h1j
      congr 1
      omega
    rw [h5 (by omega)]
  · have hje : j + 1 = data.length := by omega
    have hz : 1 + j - data.length < [((none : Label), "O")].length := by
      simp
      omega
    have h3 : (data ++ [((none : Label), "O")])[1 + j] =
        [((none : Label), "O")][1 + j - data.length] :=
      List.getElem_append_right (by omega)
    have h4 : 1 + j - data.length = 0 := by omega
    rw [h3]
    simp only [h4]
    rw [List.getD_eq_default data vout (by omega)]
    rfl

theorem zip3_length {α β γ : Type} (a : List α) (b : List β) (c : List γ) :
    (zip3 a b c).length = min a.length (min b.length c.length) := by
  simp [zip3]

theorem zip3_getElem {α β γ : Type} (a : List α) (b : List β) (c : List γ)
    (j : Nat) (h : j < (zip3 a b c).length)
    (h1 : j < a.length) (h2 : j < b.length) (h3 : j < c.length) :
    (zip3 a b c)[j] = (a.get ⟨j, h1⟩, b.get ⟨j, h2⟩, c.get ⟨j, h3⟩) := by
  unfold zip3
  rw [List.getElem_zip, List.getElem_zip]
  rfl

/-- `convert` restricted to a supported target scheme, written as a total
map (the shape `convert` takes there). -/
theorem convert_core_length (tokens : List Pair) (scheme : String) :
    (convert_core tokens scheme).length = tokens.length := by
  simp [convert_core, zip3_length, get_boc_length, get_eoc_length]

theorem convert_supported (tokens : List Pair) (s : String)
    (hs : s ∈ supported_schemes) :
    convert tokens s true = some (convert_core tokens s) := by
  have hbase : dict_getD coc_maps s s = s := by fin_cases hs <;> rfl
  have hb1 : (s == "IOB1") = false := by fin_cases hs <;> rfl
  have he1 : (s == "IOE1") = false := by fin_cases hs <;> rfl
  have hmap : (zip3 (get_boc tokens) (get_eoc tokens) tokens).mapM
      (fun x => (gen_affix x.2.2.1 x.1 x.2.1 s).map (fun a => (x.2.2.1, a)))
      = some ((zip3 (get_boc tokens) (get_eoc tokens) tokens).map
        (fun x => (x.2.2.1, scheme_fn s (canon_affix x.2.2.1 x.1 x.2.1)))) := by
    refine mapM_eq_map _ _ _ (fun x _ => ?_)
    rw [gen_affix_supported x.2.2.1 x.1 x.2.1 s hs]
    rfl
  simp only [convert, hbase, hmap, hb1, he1, Option.bind_some, Option.bind,
    if_false, Bool.false_eq_true, convert_core]
  rfl

end Econll

/-- C2: `isa_boc` returns true iff curr affix is in {B, S}, or prev affix is
in {E, S, O} and curr affix is in {I, E}, or the labels differ and curr affix
is not 'O'; and `isa_eoc` returns true iff prev affix is in {E, S}, or prev
affix is in {B, I} and curr affix is in {B, S, O}, or the labels differ and
prev affix is not 'O'. -/
theorem C2_boundary_predicates
    (pl : Econll.Label) (pa : Econll.Affix)
    (cl : Econll.Label) (ca : Econll.Affix) :
    (Econll.isa_boc pl pa cl ca = true ↔
      ((ca = "B" ∨ ca = "S") ∨
       ((pa = "E" ∨ pa = "S" ∨ pa = "O") ∧ (ca = "I" ∨ ca = "E")) ∨
       (pl ≠ cl ∧ ca ≠ "O"))) ∧
    (Econll.isa_eoc pl pa cl ca = true ↔
      ((pa = "E" ∨ pa = "S") ∨
       ((pa = "B" ∨ pa = "I") ∧ (ca = "B" ∨ ca = "S" ∨ ca = "O")) ∨
       (pl ≠ cl ∧ pa ≠ "O"))) := by
  constructor
  · simp [Econll.isa_boc]
    tauto
  · simp [Econll.isa_eoc]
    tauto

open Econll

/-- C10: for the empty tag list (with no affix map supplied), `parse` raises
instead of returning the empty label-affix sequence: the scheme check cannot
unpack an empty sequence of pairs, so `parse []` is an error (`none`). -/
theorem C10_parse_empty :
    Econll.parse [] none none none "prefix" "-" "O" = none := by
  rfl

/-- C4: for every label-affix sequence and every supported target scheme,
`convert` succeeds and produces a sequence of the same length with unchanged
labels, whose affix at each position is generated by `gen_affix` for the
target scheme from the boc/eoc flags computed by `isa_boc`/`isa_eoc` with a
virtual `(None, "O")` neighbor at both ends; in particular converting
`["B-X", "I-X", "I-X"]` from IOB to IOBES yields `["B-X", "I-X", "E-X"]`. -/
theorem C4_convert_scheme :
    (∀ (tokens : List Pair) (scheme : String),
      scheme ∈ supported_schemes →
      ∃ out, convert tokens scheme true = some out ∧
        out.length = tokens.length ∧
        ∀ j, j < tokens.length →
          (out.getD j vout).1 = (tokens.getD j vout).1 ∧
          gen_affix (tokens.getD j vout).1
            (isa_boc (if j = 0 then vout else tokens.getD (j - 1) vout).1
                     (if j = 0 then vout else tokens.getD (j - 1) vout).2
                     (tokens.getD j vout).1 (tokens.getD j vout).2)
            (isa_eoc (tokens.getD j vout).1 (tokens.getD j vout).2
                     (tokens.getD (j + 1) vout).1 (tokens.getD (j + 1) vout).2)
            scheme
            = some (out.getD j vout).2) ∧
    convert [(some "X", "B"), (some "X", "I"), (some "X", "I")] "IOBES" true
      = some [(some "X", "B"), (some "X", "I"), (some "X", "E")] := by
  constructor
  · intro tokens scheme hs
    refine ⟨convert_core tokens scheme, convert_supported tokens scheme hs,
      convert_core_length tokens scheme, ?_⟩
    intro j hj
    have hjz : j < (zip3 (get_boc tokens) (get_eoc tokens) tokens).length := by
      rw [zip3_length, get_boc_length, get_eoc_length]
      omega
    have hjo : j < (convert_core tokens scheme).length := by
      rw [convert_core_length]
      omega
    have hjb : j < (get_boc tokens).length := by rw [get_boc_length]; omega
    have hje : j < (get_eoc tokens).length := by rw [get_eoc_length]; omega
    have hout : (convert_core tokens scheme).getD j vout
        = (convert_core tokens scheme)[j] :=
      List.getD_eq_getElem _ vout hjo
    have hcc : (convert_core tokens scheme)[j]
        = ((tokens[j]).1,
            scheme_fn scheme
              (canon_affix (tokens[j]).1 (get_boc tokens)[j] (get_eoc tokens)[j])) := by
      unfold convert_core
      rw [List.getElem_map, zip3_getElem _ _ _ j hjz hjb hje hj]
      simp
    have htok : tokens.getD j vout = tokens[j] := List.getD_eq_getElem _ vout hj
    rw [hout, hcc, htok]
    constructor
    · rfl
    · rw [← get_boc_getElem tokens j hjb hj, ← get_eoc_getElem tokens j hje hj]
      exact gen_affix_supported _ _ _ scheme hs
  · rfl

namespace Econll

theorem mk_data (s : String) : String.mk s.data = s := by
  cases s
  rfl

theorem py_split_go_no_occ (g : Char) (fuel : Nat) (s acc : List Char)
    (hf : s.length ≤ fuel) (hg : g ∉ s) :
    py_split_go [g] fuel s acc = [acc.reverse ++ s] := by
  induction fuel generalizing s acc with
  | zero =>
      have hs : s = [] := List.eq_nil_of_length_eq_zero (by omega)
      subst hs
      simp [py_split_go]
  | succ f ih =>
      cases s with
      | nil => simp [py_split_go]
      | cons c rest =>
          have hgc : g ≠ c := by
            intro h
            exact hg (h ▸ List.mem_cons_self c rest)
          have hcond : ¬(([g] : List Char) ≠ [] ∧
              ([g] : List Char).isPrefixOf (c :: rest)) := by
            rintro ⟨-, hpre⟩
            simp [List.isPrefixOf] at hpre
            exact hgc hpre
          rw [py_split_go, if_neg hcond]
          have hrec : py_split_go [g] f rest (c :: acc)
              = [(c :: acc).reverse ++ rest] := by
            refine ih rest (c :: acc) (by simp at hf; omega) ?_
            intro hm
            exact hg (List.mem_cons_of_mem c hm)
          rw [hrec]
          simp

theorem py_split_go_single_cut (g : Char) (a l : List Char) :
    ∀ (fuel : Nat) (acc : List Char),
    a.length + 1 + l.length ≤ fuel → g ∉ a → g ∉ l →
    py_split_go [g] fuel (a ++ g :: l) acc = [acc.reverse ++ a, l] := by
  induction a with
  | nil =>
      intro fuel acc hf ha hl
      cases fuel with
      | zero => simp at hf
      | succ f =>
          have hcond : (([g] : List Char) ≠ [] ∧
              ([g] : List Char).isPrefixOf (g :: l)) := by
            refine ⟨by simp, ?_⟩
            simp [List.isPrefixOf]
          rw [List.nil_append, py_split_go, if_pos hcond]
          have hdrop : (g :: l).drop ([g] : List Char).length = l := by simp
          rw [hdrop, py_split_go_no_occ g f l [] (by simp at hf; omega) hl]
          simp
  | cons c a' ih =>
      intro fuel acc hf ha hl
      cases fuel with
      | zero => simp at hf
      | succ f =>
          have hgc : g ≠ c := by
            intro h
            exact ha (h ▸ List.mem_cons_self c a')
          have hcond : ¬(([g] : List Char) ≠ [] ∧
              ([g] : List Char).isPrefixOf (c :: (a' ++ g :: l))) := by
            rintro ⟨-, hpre⟩
            simp [List.isPrefixOf] at hpre
            exact hgc hpre
          rw [List.cons_append, py_split_go, if_neg hcond]
          have hrec : py_split_go [g] f (a' ++ g :: l) (c :: acc)
              = [(c :: acc).reverse ++ a', l] := by
            refine ih f (c :: acc) (by simp at hf ⊢; omega) ?_ hl
            intro hm
            exact ha (List.mem_cons_of_mem c hm)
          rw [hrec]
          simp

theorem py_split_single_cut (g : Char) (x y : String)
    (hx : g ∉ x.data) (hy : g ∉ y.data) :
    py_split (x ++ String.mk [g] ++ y) (String.mk [g]) = [x, y] := by
  unfold py_split
  have hdata : (x ++ String.mk [g] ++ y).data = x.data ++ g :: y.data := by
    simp [String.data_append]
  rw [hdata]
  have hm : (String.mk [g]).data = [g] := rfl
  rw [hm]
  rw [py_split_go_single_cut g x.data y.data _ []
    (by simp only [List.length_append, List.length_cons]; omega) hx hy]
  simp [mk_data]

theorem parse_merge_tag_some (kind glue otag : String) (lbl affix : String)
    (g : Char) (hg : glue = String.mk [g])
    (hocc1 : g ∉ affix.data) (hocc2 : g ∉ lbl.data)
    (hne : merge_tag (some lbl) affix kind glue otag ≠ otag) :
    parse_tag (merge_tag (some lbl) affix kind glue otag) kind glue otag
      = some (some lbl, affix) := by
  have hglue_ne : ¬(glue = "") := by
    subst hg
    intro h
    have : (String.mk [g]).data = ("" : String).data := by rw [h]
    simp at this
  by_cases hk : (kind == "prefix") = true
  · have hmt : merge_tag (some lbl) affix kind glue otag
        = affix ++ glue ++ lbl := by
      simp [merge_tag, hk]
    rw [hmt] at hne ⊢
    subst hg
    rw [parse_tag, if_neg hglue_ne]
    simp only [py_split_single_cut g affix lbl hocc1 hocc2, hk, if_true]
    have hbeq : (affix ++ String.mk [g] ++ lbl == otag) = false := by
      simp only [beq_eq_false_iff_ne, ne_eq]
      exact hne
    rw [hbeq]
    simp
  · have hmt : merge_tag (some lbl) affix kind glue otag
        = lbl ++ glue ++ affix := by
      simp [merge_tag, hk]
    rw [hmt] at hne ⊢
    subst hg
    rw [parse_tag, if_neg hglue_ne]
    simp only [py_split_single_cut g lbl affix hocc2 hocc1, hk, if_false]
    have hbeq : (lbl ++ String.mk [g] ++ affix == otag) = false := by
      simp only [beq_eq_false_iff_ne, ne_eq]
      exact hne
    rw [hbeq]
    simp

theorem parse_merge_tag_none (kind glue otag : String) (affix : String)
    (hglue : glue ≠ "") (haffix : affix = otag) :
    parse_tag (merge_tag none affix kind glue otag) kind glue otag
      = some (none, affix) := by
  have hmt : merge_tag none affix kind glue otag = otag := rfl
  rw [hmt, parse_tag, if_neg hglue]
  simp [haffix]

end Econll

/-- C6 counterexample: the sequence `[("A-B", "B")]` is valid in the claim's
sense (label present, affix "B" not the outside marker), yet merging and
re-parsing it with the default format fails (the label contains the
separator, so the split has three parts), refuting the round-trip as
claimed. -/
theorem C6_counterexample :
    ((some "A-B" : Econll.Label) ≠ none ∧ ("B" : String) ≠ "O") ∧
    Econll.parse_tags
      (Econll.merge_tags [((some "A-B" : Econll.Label), "B")] "prefix" "-" "O")
      "prefix" "-" "O" = none := by
  decide

/-- C6 (amended): for every tag format whose separator is a single character,
and every label-affix sequence satisfying the coupling invariant (label
absent iff affix is the outside tag) in which, for label-bearing pairs, the
separator character occurs in neither the affix nor the label and the merged
tag does not collide with the outside tag, re-parsing the merged tags returns
exactly the original sequence; and merging a pair with an absent label always
yields exactly the outside tag regardless of its affix.  (The original claim,
with no restriction on the labels, fails when a label contains the separator:
see the counterexample.) -/
theorem C6_tag_roundtrip :
    (∀ (kind glue otag : String) (g : Char) (seq : List Econll.Pair),
      glue = String.mk [g] →
      (∀ p ∈ seq, (p.1 = none ↔ p.2 = otag)) →
      (∀ p ∈ seq, g ∉ p.2.data ∧ g ∉ ((p.1.getD "").data)) →
      (∀ p ∈ seq, p.1 ≠ none →
        Econll.merge_tag p.1 p.2 kind glue otag ≠ otag) →
      Econll.parse_tags (Econll.merge_tags seq kind glue otag) kind glue otag
        = some seq) ∧
    (∀ (affix kind glue otag : String),
      Econll.merge_tag none affix kind glue otag = otag) := by
  constructor
  · intro kind glue otag g seq hg hval hocc hne
    have hglue_ne : glue ≠ "" := by
      subst hg
      intro h
      have : (String.mk [g]).data = ("" : String).data := by rw [h]
      simp at this
    unfold Econll.parse_tags Econll.merge_tags
    induction seq with
    | nil => rfl
    | cons p tl ih =>
        rw [List.map_cons, List.mapM_cons]
        have hp : Econll.parse_tag (Econll.merge_tag p.1 p.2 kind glue otag)
            kind glue otag = some p := by
          cases hp1 : p.1 with
          | none =>
              have haff : p.2 = otag :=
                (hval p (List.mem_cons_self p tl)).mp hp1
              have h := Econll.parse_merge_tag_none kind glue otag p.2
                hglue_ne haff
              rw [h, ← hp1]
          | some lbl =>
              have h2 := hocc p (List.mem_cons_self p tl)
              have h3 := hne p (List.mem_cons_self p tl) (by rw [hp1]; simp)
              rw [hp1] at h2 h3
              have h := Econll.parse_merge_tag_some kind glue otag lbl p.2 g hg
                h2.1 (by simpa using h2.2) h3
              rw [h, ← hp1]
        rw [hp]
        rw [ih (fun q hq => hval q (List.mem_cons_of_mem p hq))
          (fun q hq => hocc q (List.mem_cons_of_mem p hq))
          (fun q hq => hne q (List.mem_cons_of_mem p hq))]
        rfl
  · intro affix kind glue otag
    rfl

/-- C6 witness: the amended round-trip applied to a concrete valid sequence
under the default tag format. -/
theorem C6_tag_roundtrip_witness :
    Econll.parse_tags
      (Econll.merge_tags
        [((some "X" : Econll.Label), "B"), ((none : Econll.Label), "O")]
        "prefix" "-" "O")
      "prefix" "-" "O"
    = some [((some "X" : Econll.Label), "B"), ((none : Econll.Label), "O")] :=
  C6_tag_roundtrip.1 "prefix" "-" "O" (Char.ofNat 45)
    [((some "X" : Econll.Label), "B"), ((none : Econll.Label), "O")]
    (by decide) (by decide) (by decide) (by decide)

namespace Econll

theorem mapM_mem {α β : Type} (f : α → Option β) (l : List α) (r : List β)
    (h : l.mapM f = some r) : ∀ y ∈ r, ∃ x ∈ l, f x = some y := by
  induction l generalizing r with
  | nil =>
      have h0 : (([] : List α).mapM f) = some ([] : List β) := rfl
      rw [h0] at h
      have : r = [] := (Option.some.inj h).symm
      subst this
      intro y hy
      simp at hy
  | cons a tl ih =>
      rw [List.mapM_cons] at h
      cases ha : f a with
      | none => rw [ha] at h; simp at h
      | some b =>
          rw [ha] at h
          cases hm : tl.mapM f with
          | none => rw [hm] at h; simp at h
          | some bs =>
              rw [hm] at h
              have hr : r = b :: bs := by
                have : some (b :: bs) = some r := h
                simpa using this.symm
              subst hr
              intro y hy
              rcases List.mem_cons.mp hy with hyb | hybs
              · exact ⟨a, List.mem_cons_self a tl, hyb ▸ ha⟩
              · rcases ih bs hm y hybs with ⟨x, hx, hfx⟩
                exact ⟨x, List.mem_cons_of_mem a hx, hfx⟩

theorem dict_get_mem_values {α β : Type} [BEq α] (d : List (α × β)) (k : α)
    (v : β) (h : dict_get d k = some v) : ∃ kv ∈ d, kv.2 = v := by
  unfold dict_get at h
  cases hf : d.find? (fun kv => kv.1 == k) with
  | none => rw [hf] at h; simp at h
  | some kv =>
      rw [hf] at h
      refine ⟨kv, List.mem_of_find?_eq_some hf, ?_⟩
      simpa using h

theorem gen_affix_coupled (l : Label) (b e : Bool) (s : String) (a : Affix)
    (h : gen_affix l b e s = some a) : (l = none ↔ a = "O") := by
  unfold gen_affix get_affix at h
  cases hs : get_scheme s with
  | none => rw [hs] at h; simp at h
  | some m =>
      rw [hs] at h
      simp only [Option.some_bind] at h
      have hmem : ∃ kv ∈ schemes_table, kv.2 = m :=
        dict_get_mem_values schemes_table s m hs
      rcases hmem with ⟨kv, hkv, hkv2⟩
      have hm5 : m = [("I", "I"), ("O", "O"), ("B", "I"), ("E", "I"), ("S", "I")]
          ∨ m = [("I", "I"), ("O", "O"), ("B", "B"), ("E", "I"), ("S", "B")]
          ∨ m = [("I", "I"), ("O", "O"), ("B", "I"), ("E", "E"), ("S", "E")]
          ∨ m = [("I", "I"), ("O", "O"), ("B", "B"), ("E", "E"), ("S", "B")]
          ∨ m = [("I", "I"), ("O", "O"), ("B", "B"), ("E", "E"), ("S", "S")] := by
        have hmem2 :
            kv = ("IO", [("I", "I"), ("O", "O"), ("B", "I"), ("E", "I"), ("S", "I")])
            ∨ kv = ("IOB", [("I", "I"), ("O", "O"), ("B", "B"), ("E", "I"), ("S", "B")])
            ∨ kv = ("IOE", [("I", "I"), ("O", "O"), ("B", "I"), ("E", "E"), ("S", "E")])
            ∨ kv = ("IOBE", [("I", "I"), ("O", "O"), ("B", "B"), ("E", "E"), ("S", "B")])
            ∨ kv = ("IOBES", [("I", "I"), ("O", "O"), ("B", "B"), ("E", "E"), ("S", "S")]) := by
          simpa [schemes_table] using hkv
        rcases hmem2 with h1 | h1 | h1 | h1 | h1 <;> subst h1 <;>
          rw [← hkv2] <;> simp
      by_cases hl : l = none
      · have hcanon : canon_affix l b e = "O" := by simp [canon_affix, hl]
        rw [hcanon] at h
        rcases hm5 with h5 | h5 | h5 | h5 | h5 <;>
          (subst h5
           have : a = "O" := by
             have := h
             simp [dict_get, List.find?] at this
             exact this.symm
           simp [hl, this])
      · have hcanon : canon_affix l b e = "B" ∨ canon_affix l b e = "E" ∨
            canon_affix l b e = "S" ∨ canon_affix l b e = "I" := by
          cases b <;> cases e <;> simp [canon_affix, hl]
        have hne : a ≠ "O" := by
          rcases hm5 with h5 | h5 | h5 | h5 | h5 <;>
            (subst h5
             rcases hcanon with hc | hc | hc | hc <;>
               (rw [hc] at h
                simp [dict_get, List.find?] at h
                intro hcontra
                rw [hcontra] at h
                revert h
                decide))
        constructor
        · intro hc; exact absurd hc hl
        · intro hc; exact absurd hc hne

end Econll

namespace Econll

theorem coc_post_coupled (flags : List Bool) (l : List Pair) (t : String)
    (ht : t ≠ "O")
    (hl : ∀ y ∈ l, (y.1 = none ↔ y.2 = "O")) :
    ∀ q ∈ (flags.zip l).map
      (fun z => (z.2.1, if z.2.2 == t && z.1 == false then "I" else z.2.2)),
      (q.1 = none ↔ q.2 = "O") := by
  intro q hq
  rcases List.mem_map.mp hq with ⟨z, hz, hqe⟩
  subst hqe
  have hz2 : z.2 ∈ l := (List.of_mem_zip hz).2
  have hc := hl z.2 hz2
  by_cases hcond : (z.2.2 == t && z.1 == false) = true
  · have hzt : z.2.2 = t := by
      have := (Bool.and_eq_true _ _).mp hcond
      exact beq_iff_eq.mp this.1
    have hne : ¬(z.2.1 = none) := by
      intro hn
      have := hc.mp hn
      rw [hzt] at this
      exact ht this
    rw [if_pos hcond]
    constructor
    · intro hn
      exact absurd hn hne
    · intro hc2
      have hIO : ("I" : String) ≠ "O" := by decide
      exact absurd hc2 hIO
  · rw [if_neg hcond]
    exact hc

theorem convert_coupled (tokens : List Pair) (scheme : String)
    (out : List Pair) (h : convert tokens scheme true = some out) :
    ∀ q ∈ out, (q.1 = none ↔ q.2 = "O") := by
  simp only [convert] at h
  cases hm : (zip3 (get_boc tokens) (get_eoc tokens) tokens).mapM
      (fun x => (gen_affix x.2.2.1 x.1 x.2.1
        (dict_getD coc_maps scheme scheme)).map (fun a => (x.2.2.1, a))) with
  | none =>
      rw [hm] at h
      simp at h
  | some outs0 =>
      rw [hm] at h
      simp only [Option.bind_eq_bind, Option.some_bind] at h
      have hbase : ∀ y ∈ outs0, (y.1 = none ↔ y.2 = "O") := by
        intro y hy
        rcases mapM_mem _ _ _ hm y hy with ⟨x, hx, hfx⟩
        cases hga : gen_affix x.2.2.1 x.1 x.2.1
            (dict_getD coc_maps scheme scheme) with
        | none => rw [hga] at hfx; simp at hfx
        | some a =>
            rw [hga] at hfx
            simp only [Option.map_some'] at hfx
            have hy2 : y = (x.2.2.1, a) := (Option.some.inj hfx).symm
            subst hy2
            exact gen_affix_coupled _ _ _ _ _ hga
      by_cases hb : (scheme == "IOB1") = true
      · by_cases he : (scheme == "IOE1") = true
        · exact absurd (beq_iff_eq.mp hb ▸ beq_iff_eq.mp he) (by decide)
        · have he' : (scheme == "IOE1") = false := by simpa using he
          rw [hb, he'] at h
          simp only [Bool.false_eq_true, if_false, eq_self_iff_true, if_true,
            Option.pure_def] at h
          have hout := (Option.some.inj h).symm
          subst hout
          exact coc_post_coupled _ _ "B" (by decide) hbase
      · have hb' : (scheme == "IOB1") = false := by simpa using hb
        by_cases he : (scheme == "IOE1") = true
        · rw [hb', he] at h
          simp only [Bool.false_eq_true, if_false, eq_self_iff_true, if_true,
            Option.pure_def] at h
          have hout := (Option.some.inj h).symm
          subst hout
          exact coc_post_coupled _ _ "E" (by decide) hbase
        · have he' : (scheme == "IOE1") = false := by simpa using he
          rw [hb', he'] at h
          simp only [Bool.false_eq_true, if_false, Option.pure_def] at h
          have hout := (Option.some.inj h).symm
          subst hout
          exact hbase

theorem relabel_coupled (tokens : List Pair) (labels : List (String × Label))
    (hval : ∀ p ∈ tokens, (p.1 = none ↔ p.2 = "O")) :
    ∀ q ∈ relabel tokens labels "O", (q.1 = none ↔ q.2 = "O") := by
  intro q hq
  rcases List.mem_map.mp hq with ⟨p, hp, hqe⟩
  subst hqe
  unfold relabel_token
  cases hp1 : p.1 with
  | none => simp
  | some lbl =>
      have hp2 : p.2 ≠ "O" := by
        intro hc
        have := (hval p hp).mpr hc
        rw [hp1] at this
        cases this
      cases hd : dict_get labels lbl with
      | none => simp [hd, hp2]
      | some v =>
          cases v with
          | none => simp [hd]
          | some w => simp [hd, hp2]

theorem reaffix_coupled (tokens : List Pair) (morphs : List (Affix × Affix))
    (hmor : ∀ kv ∈ morphs,
      kv.2 = "I" ∨ kv.2 = "B" ∨ kv.2 = "E" ∨ kv.2 = "S")
    (hval : ∀ p ∈ tokens, (p.1 = none ↔ p.2 = "O")) :
    ∀ q ∈ reaffix tokens morphs "O", (q.1 = none ↔ q.2 = "O") := by
  intro q hq
  rcases List.mem_map.mp hq with ⟨p, hp, hqe⟩
  subst hqe
  unfold reaffix_token
  cases hp1 : p.1 with
  | none => simp [hp1]
  | some lbl =>
      have hp2 : p.2 ≠ "O" := by
        intro hc
        have := (hval p hp).mpr hc
        rw [hp1] at this
        cases this
      have haff : dict_getD morphs p.2 p.2 ≠ "O" := by
        unfold dict_getD
        cases hd : dict_get morphs p.2 with
        | none => simpa using hp2
        | some v =>
            rcases dict_get_mem_values morphs p.2 v hd with ⟨kv, hkv, hkv2⟩
            rcases hmor kv hkv with h4 | h4 | h4 | h4 <;>
              (rw [hkv2] at h4; simp [h4])
      simp [hp1, haff]

end Econll

/-- C8 counterexample: the affix map `{"B": "O"}` has all its values in
{I, O, B, E, S} (so `check_morphs` accepts it), yet `reaffix` applied to the
valid pair `("X", "B")` produces `("X", "O")`, which violates the coupling
invariant (label present while the affix is the outside marker). -/
theorem C8_counterexample :
    Econll.check_morphs [("B", "O")] = some () ∧
    ((some "X" : Econll.Label) = none ↔ ("B" : String) = "O") ∧
    Econll.reaffix [((some "X" : Econll.Label), "B")] [("B", "O")] "O"
      = [((some "X" : Econll.Label), "O")] ∧
    ¬((some "X" : Econll.Label) = none ↔ ("O" : String) = "O") := by
  refine ⟨by decide, by decide, by decide, by decide⟩

/-- C8 (amended): for every input sequence in which each pair satisfies
"label is absent iff the affix is the outside marker O", the outputs of
`relabel` (with any label map), `reaffix` (with any affix map whose values
lie in {I, B, E, S} -- the original claim's {I, O, B, E, S} fails, since a
map with value "O" can attach the outside affix to a present label, see the
counterexample), and `convert` (whenever it succeeds, in particular for any
supported scheme) satisfy the invariant at every position. -/
theorem C8_invariant_preservation :
    (∀ (tokens : List Econll.Pair) (labels : List (String × Econll.Label)),
      (∀ p ∈ tokens, (p.1 = none ↔ p.2 = "O")) →
      ∀ q ∈ Econll.relabel tokens labels "O", (q.1 = none ↔ q.2 = "O")) ∧
    (∀ (tokens : List Econll.Pair) (morphs : List (Econll.Affix × Econll.Affix)),
      (∀ kv ∈ morphs, kv.2 = "I" ∨ kv.2 = "B" ∨ kv.2 = "E" ∨ kv.2 = "S") →
      (∀ p ∈ tokens, (p.1 = none ↔ p.2 = "O")) →
      ∀ q ∈ Econll.reaffix tokens morphs "O", (q.1 = none ↔ q.2 = "O")) ∧
    (∀ (tokens : List Econll.Pair) (scheme : String) (out : List Econll.Pair),
      Econll.convert tokens scheme true = some out →
      ∀ q ∈ out, (q.1 = none ↔ q.2 = "O")) :=
  ⟨Econll.relabel_coupled, Econll.reaffix_coupled, Econll.convert_coupled⟩

/-- C8 witness: the reaffix preservation applied to a concrete valid pair and
a concrete {I, B, E, S}-valued affix map. -/
theorem C8_invariant_preservation_witness :
    ((some "X" : Econll.Label) = none ↔ ("E" : String) = "O") :=
  C8_invariant_preservation.2.1 [((some "X" : Econll.Label), "B")]
    [("B", "E")] (by decide) (by decide)
    ((some "X" : Econll.Label), "E") (by decide)

namespace Econll

theorem py_insort_perm {α : Type} (le : α → α → Bool) (a : α) (l : List α) :
    (py_insort le a l).Perm (a :: l) := by
  induction l with
  | nil => exact List.Perm.refl _
  | cons b l ih =>
      by_cases hba : le b a = true
      · simp only [py_insort, hba, if_true]
        exact (ih.cons b).trans (List.Perm.swap a b l)
      · have hba' : le b a = false := by simpa using hba
        simp only [py_insort, hba', Bool.false_eq_true, if_false]
        exact List.Perm.refl _

theorem py_sorted_perm {α : Type} (le : α → α → Bool) (l : List α) :
    (py_sorted le l).Perm l := by
  induction l with
  | nil => exact List.Perm.refl _
  | cons a l ih =>
      have : py_sorted le (a :: l) = py_insort le a (py_sorted le l) := rfl
      rw [this]
      exact (py_insort_perm le a (py_sorted le l)).trans (ih.cons a)

theorem py_insort_pairwise {α : Type} (le : α → α → Bool)
    (htrans : ∀ a b c, le a b = true → le b c = true → le a c = true)
    (htot : ∀ a b, (le a b || le b a) = true)
    (a : α) (l : List α) (hl : l.Pairwise (fun x y => le x y = true)) :
    (py_insort le a l).Pairwise (fun x y => le x y = true) := by
  induction l with
  | nil => simp [py_insort]
  | cons b l ih =>
      rcases List.pairwise_cons.mp hl with ⟨hb, hl'⟩
      by_cases hba : le b a = true
      · simp only [py_insort, hba, if_true]
        refine List.pairwise_cons.mpr ⟨?_, ih hl'⟩
        intro x hx
        have hx' : x ∈ a :: l := (py_insort_perm le a l).mem_iff.mp hx
        rcases List.mem_cons.mp hx' with hxa | hxl
        · subst hxa; exact hba
        · exact hb x hxl
      · have hba' : le b a = false := by simpa using hba
        have hab : le a b = true := by simpa [hba'] using htot a b
        simp only [py_insort, hba', Bool.false_eq_true, if_false]
        refine List.pairwise_cons.mpr ⟨?_, hl⟩
        intro x hx
        rcases List.mem_cons.mp hx with hxb | hxl
        · subst hxb; exact hab
        · exact htrans a b x hab (hb x hxl)

theorem py_sorted_pairwise {α : Type} (le : α → α → Bool)
    (htrans : ∀ a b c, le a b = true → le b c = true → le a c = true)
    (htot : ∀ a b, (le a b || le b a) = true)
    (l : List α) :
    (py_sorted le l).Pairwise (fun x y => le x y = true) := by
  induction l with
  | nil => simp [py_sorted]
  | cons a l ih => exact py_insort_pairwise le htrans htot a (py_sorted le l) ih

theorem int_list_le_total : ∀ x y : List Int,
    (int_list_le x y || int_list_le y x) = true := by
  intro x
  induction x with
  | nil => intro y; simp [int_list_le]
  | cons a as ih =>
      intro y
      cases y with
      | nil => simp [int_list_le]
      | cons b bs =>
          by_cases h1 : a < b
          · simp [int_list_le, h1]
          · by_cases h2 : b < a
            · simp [int_list_le, h1, h2]
            · simp only [int_list_le, if_neg h1, if_neg h2]
              exact ih bs

theorem int_list_le_trans : ∀ x y z : List Int,
    int_list_le x y = true → int_list_le y z = true →
    int_list_le x z = true := by
  intro x
  induction x with
  | nil => intro y z _ _; simp [int_list_le]
  | cons a as ih =>
      intro y z hxy hyz
      cases y with
      | nil => simp [int_list_le] at hxy
      | cons b bs =>
          cases z with
          | nil => simp [int_list_le] at hyz
          | cons c cs =>
              by_cases h1 : a < b
              · by_cases h2 : b < c
                · have h3 : a < c := by omega
                  simp [int_list_le, h3]
                · by_cases h3 : c < b
                  · simp only [int_list_le, if_neg h2, if_pos h3] at hyz
                    exact absurd hyz (by simp)
                  · have h4 : a < c := by omega
                    simp [int_list_le, h4]
              · by_cases h2 : b < a
                · simp only [int_list_le, if_neg h1, if_pos h2] at hxy
                  exact absurd hxy (by simp)
                · have hab : a = b := by omega
                  subst hab
                  simp only [int_list_le, if_neg h1, if_neg h2] at hxy
                  by_cases h3 : a < c
                  · simp [int_list_le, h3]
                  · by_cases h4 : c < a
                    · simp only [int_list_le, if_neg h3, if_pos h4] at hyz
                      exact absurd hyz (by simp)
                    · simp only [int_list_le, if_neg h3, if_neg h4] at hyz ⊢
                      exact ih bs cs hxy hyz

theorem int_list_le_head (a b : Int) (as bs : List Int)
    (h : int_list_le (a :: as) (b :: bs) = true) : a ≤ b := by
  simp only [int_list_le] at h
  by_cases h1 : a < b
  · omega
  · by_cases h2 : b < a
    · rw [if_neg h1, if_pos h2] at h
      exact absurd h (by simp)
    · omega

end Econll

namespace Econll

theorem row_idx_quad (A B C D : Int) : row_idx [A, B, C, D] = B := rfl

theorem row_bos_quad (A B C D : Int) : row_bos [A, B, C, D] = C := rfl

theorem row_eos_quad (A B C D : Int) : row_eos [A, B, C, D] = D := rfl

theorem consolidate_loop_spec (spans : List Span) :
    ∀ (fuel : Nat) (items : List (List Int)),
    items.length ≤ fuel →
    (∀ r ∈ items, row_ok spans r) →
    items.Pairwise (fun x y => int_list_le y x = true) →
    (∀ v ∈ consolidate_loop fuel items, ∃ r ∈ items, v = -(row_idx r)) ∧
    (consolidate_loop fuel items).Pairwise (fun u v =>
      ¬(max (spans.getD u.toNat (0, 0)).1 (spans.getD v.toNat (0, 0)).1 <
        min (spans.getD u.toNat (0, 0)).2 (spans.getD v.toNat (0, 0)).2)) := by
  intro fuel
  induction fuel with
  | zero =>
      intro items hlen _ _
      have hnil : items = [] := List.eq_nil_of_length_eq_zero (by omega)
      subst hnil
      exact ⟨fun v hv => by simp [consolidate_loop] at hv,
        by simp [consolidate_loop]⟩
  | succ f ih =>
      intro items hlen hok hsorted
      cases items with
      | nil =>
          exact ⟨fun v hv => by simp [consolidate_loop] at hv,
            by simp [consolidate_loop]⟩
      | cons top rest =>
          rcases List.pairwise_cons.mp hsorted with ⟨htop, hrest⟩
          have hokf : ∀ r ∈ rest.filter (fun r => !(row_drop top r)),
              row_ok spans r := fun r hr =>
            hok r (List.mem_cons_of_mem top (List.mem_filter.mp hr).1)
          have hsorf :
              (rest.filter (fun r => !(row_drop top r))).Pairwise
                (fun x y => int_list_le y x = true) := hrest.filter _
          have hlenf : (rest.filter (fun r => !(row_drop top r))).length ≤ f := by
            have h1 := List.length_filter_le (fun r => !(row_drop top r)) rest
            simp only [List.length_cons] at hlen
            omega
          obtain ⟨ihmem, ihpw⟩ := ih _ hlenf hokf hsorf
          have hunfold : consolidate_loop (f + 1) (top :: rest)
              = (-(row_idx top)) :: consolidate_loop f
                  (rest.filter (fun r => !(row_drop top r))) := rfl
          constructor
          · intro v hv
            rw [hunfold] at hv
            rcases List.mem_cons.mp hv with hv1 | hv2
            · exact ⟨top, List.mem_cons_self _ _, hv1⟩
            · rcases ihmem v hv2 with ⟨r, hrf, hre⟩
              exact ⟨r, List.mem_cons_of_mem top (List.mem_filter.mp hrf).1, hre⟩
          · rw [hunfold]
            refine List.pairwise_cons.mpr ⟨?_, ihpw⟩
            intro v hv
            rcases ihmem v hv with ⟨r, hrf, hre⟩
            rcases List.mem_filter.mp hrf with ⟨hrrest, hkeep⟩
            rcases hok top (List.mem_cons_self _ _) with ⟨it, hit, htope⟩
            rcases hokf r hrf with ⟨ir, hir, hres⟩
            have hle : int_list_le r top = true := htop r hrrest
            subst hre htope hres
            simp only [row_idx_quad, row_bos_quad, row_eos_quad] at hkeep hle ⊢
            have hbt :
                ((- -(it : Int)).toNat) = it := by simp
            have hbr :
                ((- -(ir : Int)).toNat) = ir := by simp
            rw [hbt, hbr]
            intro hover
            have hov1 := max_lt_iff.mp hover
            have hov2 := lt_min_iff.mp hov1.1
            have hov3 := lt_min_iff.mp hov1.2
            have hhead :
                (spans.getD ir (0, 0)).2 - (spans.getD ir (0, 0)).1 ≤
                (spans.getD it (0, 0)).2 - (spans.getD it (0, 0)).1 :=
              int_list_le_head _ _ _ _ hle
            have hkeep2 : row_drop
                [(spans.getD it (0, 0)).2 - (spans.getD it (0, 0)).1, -(it : Int),
                 (spans.getD it (0, 0)).1, (spans.getD it (0, 0)).2]
                [(spans.getD ir (0, 0)).2 - (spans.getD ir (0, 0)).1, -(ir : Int),
                 (spans.getD ir (0, 0)).1, (spans.getD ir (0, 0)).2] = false := by
              simpa using hkeep
            unfold row_drop at hkeep2
            simp only [row_bos_quad, row_eos_quad, Bool.or_eq_false_iff,
              Bool.and_eq_false_iff, decide_eq_false_iff_not, not_le,
              not_lt] at hkeep2
            omega
  
end Econll

namespace Econll

theorem consolidate_default_eq (spans : List Span) :
    consolidate spans none none true
      = some (py_sorted (fun a b => decide (a ≤ b))
          (consolidate_loop
            (py_sorted (fun x y => int_list_le y x) (default_rows spans)).length
            (py_sorted (fun x y => int_list_le y x) (default_rows spans)))) := by
  have hitems : (List.range spans.length).map
      (fun i => (([spans.map (fun s => s.2 - s.1),
        (List.range spans.length).map (fun (j : Nat) => -(j : Int))] :
          List (List Int)).map (fun s => s.getD i 0)) ++
        [(spans.getD i (0, 0)).1, (spans.getD i (0, 0)).2])
      = default_rows spans := by
    unfold default_rows
    refine List.map_congr_left ?_
    intro i hi
    have hin : i < spans.length := List.mem_range.mp hi
    have hlen1 : (spans.map (fun s => s.2 - s.1)).getD i 0
        = (spans.getD i (0, 0)).2 - (spans.getD i (0, 0)).1 := by
      rw [List.getD_eq_getElem _ _ (by simpa using hin), List.getElem_map,
        List.getD_eq_getElem _ _ hin]
    have hlen2 : ((List.range spans.length).map
        (fun (j : Nat) => -(j : Int))).getD i 0 = -(i : Int) := by
      rw [List.getD_eq_getElem _ _ (by simpa using hin), List.getElem_map,
        List.getElem_range]
    simp only [List.map_cons, List.map_nil, hlen1, hlen2]
    rfl
  have hguard : (([spans.map (fun s => s.2 - s.1),
      (List.range spans.length).map (fun (j : Nat) => -(j : Int))] :
        List (List Int)).all
      (fun s => s.length == spans.length)) = true := by
    simp
  show consolidate_spans spans [spans.map (fun s => s.2 - s.1)] = _
  unfold consolidate_spans
  simp only [List.isEmpty, Bool.false_eq_true, if_false, List.cons_append,
    List.nil_append, hguard, if_true, hitems]

theorem consolidate_loop_facts (spans : List Span) :
    (∀ v ∈ consolidate_loop
        (py_sorted (fun x y => int_list_le y x) (default_rows spans)).length
        (py_sorted (fun x y => int_list_le y x) (default_rows spans)),
      ∃ i, i < spans.length ∧ v = (i : Int)) ∧
    (consolidate_loop
        (py_sorted (fun x y => int_list_le y x) (default_rows spans)).length
        (py_sorted (fun x y => int_list_le y x) (default_rows spans))).Pairwise
      (fun u v =>
        ¬(max (spans.getD u.toNat (0, 0)).1 (spans.getD v.toNat (0, 0)).1 <
          min (spans.getD u.toNat (0, 0)).2 (spans.getD v.toNat (0, 0)).2)) := by
  have hok0 : ∀ r ∈ default_rows spans, row_ok spans r := by
    intro r hr
    rcases List.mem_map.mp hr with ⟨i, hi, hre⟩
    exact ⟨i, List.mem_range.mp hi, hre.symm⟩
  have hperm1 := py_sorted_perm (fun x y => int_list_le y x) (default_rows spans)
  have hok1 : ∀ r ∈ py_sorted (fun x y => int_list_le y x) (default_rows spans),
      row_ok spans r :=
    fun r hr => hok0 r (hperm1.mem_iff.mp hr)
  have hsor1 : (py_sorted (fun x y => int_list_le y x)
      (default_rows spans)).Pairwise (fun x y => int_list_le y x = true) :=
    py_sorted_pairwise _
      (fun a b c hab hbc => int_list_le_trans c b a hbc hab)
      (fun a b => by rw [Bool.or_comm]; exact int_list_le_total a b) _
  obtain ⟨hm, hpw⟩ := consolidate_loop_spec spans _ _ le_rfl hok1 hsor1
  refine ⟨?_, hpw⟩
  intro v hv
  rcases hm v hv with ⟨r, hr, hre⟩
  rcases hok1 r hr with ⟨i, hi, hre2⟩
  refine ⟨i, hi, ?_⟩
  subst hre hre2
  simp [row_idx_quad]

end Econll

/-- C5 counterexample: with explicit scores the discard predicate misses a
strictly containing span: `consolidate([(0,3),(1,2)], scores=[0,1])` selects
the contained span `(1,2)` first (higher score) and then also selects its
container `(0,3)`, so the output `[0, 1]` contains two overlapping spans
(their half-open intervals intersect: `max(0,1) < min(3,2)`). -/
theorem C5_counterexample :
    Econll.consolidate [(0, 3), (1, 2)] (some [0, 1]) none true
      = some [0, 1] ∧
    max (0 : Int) 1 < min (3 : Int) 2 := by
  constructor
  · decide
  · decide

/-- C5 (amended): with the default composite key (no scores, no priorities,
length tie-break), `consolidate` returns a list of input indices sorted
ascending whose selected spans are pairwise non-overlapping (half-open
intervals; touching at a boundary is not overlap); selection is greedy in
descending key order (the algorithm itself).  In particular
`consolidate([(0,3),(2,5),(5,7)])` with defaults returns `[0, 2]`.  (The
original claim, quantified over arbitrary scores/priorities, is false: a
span strictly containing the selected one escapes the discard predicate,
see the counterexample.) -/
theorem C5_consolidate :
    (∀ (spans : List Econll.Span) (res : List Int),
      Econll.consolidate spans none none true = some res →
      res.Pairwise (fun u v => u ≤ v) ∧
      (∀ v ∈ res, 0 ≤ v ∧ v.toNat < spans.length) ∧
      res.Pairwise (fun u v =>
        ¬(max (spans.getD u.toNat (0, 0)).1 (spans.getD v.toNat (0, 0)).1 <
          min (spans.getD u.toNat (0, 0)).2 (spans.getD v.toNat (0, 0)).2))) ∧
    Econll.consolidate [(0, 3), (2, 5), (5, 7)] none none true
      = some [0, 2] := by
  constructor
  · intro spans res h
    rw [Econll.consolidate_default_eq] at h
    have hres := (Option.some.inj h).symm
    subst hres
    obtain ⟨hidx, hpw⟩ := Econll.consolidate_loop_facts spans
    have hperm2 := Econll.py_sorted_perm (fun a b => decide (a ≤ b))
      (Econll.consolidate_loop
        (Econll.py_sorted (fun x y => Econll.int_list_le y x)
          (Econll.default_rows spans)).length
        (Econll.py_sorted (fun x y => Econll.int_list_le y x)
          (Econll.default_rows spans)))
    refine ⟨?_, ?_, ?_⟩
    · have hs := Econll.py_sorted_pairwise (fun a b => decide ((a : Int) ≤ b))
        (fun a b c hab hbc => by
          simp only [decide_eq_true_eq] at hab hbc ⊢
          omega)
        (fun a b => by
          by_cases hab : a ≤ b
          · simp [hab]
          · simp only [Bool.or_eq_true, decide_eq_true_eq]
            omega)
        (Econll.consolidate_loop
          (Econll.py_sorted (fun x y => Econll.int_list_le y x)
            (Econll.default_rows spans)).length
          (Econll.py_sorted (fun x y => Econll.int_list_le y x)
            (Econll.default_rows spans)))
      exact hs.imp (fun hxy => of_decide_eq_true hxy)
    · intro v hv
      have hv2 := hperm2.mem_iff.mp hv
      rcases hidx v hv2 with ⟨i, hi, hvi⟩
      subst hvi
      constructor
      · exact Int.natCast_nonneg i
      · simpa using hi
    · have hsym : ∀ {u v : Int},
          (¬(max (spans.getD u.toNat (0, 0)).1 (spans.getD v.toNat (0, 0)).1 <
            min (spans.getD u.toNat (0, 0)).2 (spans.getD v.toNat (0, 0)).2)) →
          (¬(max (spans.getD v.toNat (0, 0)).1 (spans.getD u.toNat (0, 0)).1 <
            min (spans.getD v.toNat (0, 0)).2 (spans.getD u.toNat (0, 0)).2)) := by
        intro u v huv
        rw [max_comm, min_comm]
        exact huv
      exact (List.Perm.pairwise_iff hsym hperm2).mpr hpw
  · decide

/-- C4 witness: the conversion description applied to a concrete one-token
sequence and the IOB scheme. -/
theorem C4_convert_scheme_witness :
    ∃ out,
      Econll.convert [((some "X" : Econll.Label), "B")] "IOB" true = some out ∧
      out.length = ([((some "X" : Econll.Label), "B")] : List Econll.Pair).length ∧
      ∀ j, j < ([((some "X" : Econll.Label), "B")] : List Econll.Pair).length →
        (out.getD j Econll.vout).1 =
          (([((some "X" : Econll.Label), "B")] :
            List Econll.Pair).getD j Econll.vout).1 ∧
        Econll.gen_affix
          (([((some "X" : Econll.Label), "B")] :
            List Econll.Pair).getD j Econll.vout).1
          (Econll.isa_boc
            (if j = 0 then Econll.vout
             else ([((some "X" : Econll.Label), "B")] :
               List Econll.Pair).getD (j - 1) Econll.vout).1
            (if j = 0 then Econll.vout
             else ([((some "X" : Econll.Label), "B")] :
               List Econll.Pair).getD (j - 1) Econll.vout).2
            (([((some "X" : Econll.Label), "B")] :
              List Econll.Pair).getD j Econll.vout).1
            (([((some "X" : Econll.Label), "B")] :
              List Econll.Pair).getD j Econll.vout).2)
          (Econll.isa_eoc
            (([((some "X" : Econll.Label), "B")] :
              List Econll.Pair).getD j Econll.vout).1
            (([((some "X" : Econll.Label), "B")] :
              List Econll.Pair).getD j Econll.vout).2
            (([((some "X" : Econll.Label), "B")] :
              List Econll.Pair).getD (j + 1) Econll.vout).1
            (([((some "X" : Econll.Label), "B")] :
              List Econll.Pair).getD (j + 1) Econll.vout).2)
          "IOB"
          = some (out.getD j Econll.vout).2 :=
  C4_convert_scheme.1 [((some "X" : Econll.Label), "B")] "IOB" (by decide)

/-- C5 witness: the amended consolidator properties at the concrete default
scenario. -/
theorem C5_consolidate_witness :
    ([0, 2] : List Int).Pairwise (fun u v => u ≤ v) ∧
    (∀ v ∈ ([0, 2] : List Int), 0 ≤ v ∧
      v.toNat < ([(0, 3), (2, 5), (5, 7)] : List Econll.Span).length) ∧
    ([0, 2] : List Int).Pairwise (fun u v =>
      ¬(max (([(0, 3), (2, 5), (5, 7)] :
              List Econll.Span).getD u.toNat (0, 0)).1
            (([(0, 3), (2, 5), (5, 7)] :
              List Econll.Span).getD v.toNat (0, 0)).1 <
        min (([(0, 3), (2, 5), (5, 7)] :
              List Econll.Span).getD u.toNat (0, 0)).2
            (([(0, 3), (2, 5), (5, 7)] :
              List Econll.Span).getD v.toNat (0, 0)).2)) :=
  C5_consolidate.1 [(0, 3), (2, 5), (5, 7)] [0, 2] (by decide)

namespace Econll

theorem span_key_le_total_c9 (a b : Span) :
    (span_key_le a b || span_key_le b a) = true := by
  simp only [span_key_le, Bool.or_eq_true, Bool.and_eq_true, decide_eq_true_eq]
  omega

theorem span_key_le_trans_c9 (a b c : Span)
    (hab : span_key_le a b = true) (hbc : span_key_le b c = true) :
    span_key_le a c = true := by
  simp only [span_key_le, Bool.or_eq_true, Bool.and_eq_true,
    decide_eq_true_eq] at hab hbc ⊢
  omega

theorem sorted_fst_mono (s : List Span)
    (hs : s.Pairwise (fun a b => span_key_le a b = true))
    (i k : Nat) (hik : i < k) (hk : k < s.length) :
    (s.getD i (0, 0)).1 ≤ (s.getD k (0, 0)).1 := by
  have hi : i < s.length := Nat.lt_trans hik hk
  have h := List.pairwise_iff_getElem.mp hs i k hi hk hik
  rw [List.getD_eq_getElem s (0, 0) hi, List.getD_eq_getElem s (0, 0) hk]
  simp only [span_key_le, Bool.or_eq_true, Bool.and_eq_true,
    decide_eq_true_eq] at h
  omega

theorem touches_iff (bos eos : Int) (g : Int × Int × List Nat) :
    touches bos eos g = true ↔
      (g.1 ≤ bos ∧ bos < g.2.1) ∨ (g.1 < eos ∧ eos ≤ g.2.1) := by
  simp [touches]

theorem insert_span_cons (g : Int × Int × List Nat)
    (rest : List (Int × Int × List Nat)) (idx : Nat) (bos eos : Int) :
    insert_span (g :: rest) idx bos eos =
      if touches bos eos g then
        (min g.1 bos, max g.2.1 eos, g.2.2 ++ [idx]) :: rest
      else g :: insert_span rest idx bos eos := by
  obtain ⟨bog, eog, grp⟩ := g
  rfl

theorem insert_span_no_match (idx : Nat) (bos eos : Int) :
    ∀ groups : List (Int × Int × List Nat),
      (∀ g ∈ groups, touches bos eos g = false) →
      insert_span groups idx bos eos = groups ++ [(bos, eos, [idx])] := by
  intro groups h
  induction groups with
  | nil => rfl
  | cons g rest ih =>
      rw [insert_span_cons, h g (by simp)]
      simp only [Bool.false_eq_true, if_false]
      rw [ih (fun g' hg' => h g' (by simp [hg']))]
      rfl

theorem insert_span_match_last (idx : Nat) (bos eos : Int)
    (g : Int × Int × List Nat) (hg : touches bos eos g = true) :
    ∀ pre : List (Int × Int × List Nat),
      (∀ g' ∈ pre, touches bos eos g' = false) →
      insert_span (pre ++ [g]) idx bos eos =
        pre ++ [(min g.1 bos, max g.2.1 eos, g.2.2 ++ [idx])] := by
  intro pre
  induction pre with
  | nil =>
      intro _
      rw [List.nil_append, insert_span_cons, hg]
      simp
  | cons p pre ih =>
      intro h
      rw [List.cons_append, insert_span_cons, h p (by simp)]
      simp only [Bool.false_eq_true, if_false]
      rw [ih (fun g' hg' => h g' (by simp [hg']))]
      rfl

theorem overlaps_symm (s t : Span) : overlaps s t ↔ overlaps t s := by
  unfold overlaps
  omega

end Econll

namespace Econll

theorem insert_span_inv (s : List Span) (k : Nat) (bos eos : Int)
    (hk : k < s.length) (hsk : s.getD k (0, 0) = (bos, eos))
    (hsorted : s.Pairwise (fun a b => span_key_le a b = true))
    (hwfs : ∀ x ∈ s, x.1 < x.2)
    (groups : List (Int × Int × List Nat)) (hinv : GInv s k groups) :
    GInv s (k + 1) (insert_span groups k bos eos) := by
  have hbe : bos < eos := by
    have hmem : s.getD k (0, 0) ∈ s := by
      rw [List.getD_eq_getElem s (0, 0) hk]
      exact List.getElem_mem hk
    have := hwfs _ hmem
    rw [hsk] at this
    simpa using this
  have hF1 : ∀ g ∈ groups, g.1 ≤ bos := by
    intro g hg
    obtain ⟨m, hm, _⟩ := hinv.maxw g hg
    have h1 := (hinv.bound g hg m hm).1
    have h2 : m < k := hinv.mem_lt g hg m hm
    have h3 := sorted_fst_mono s hsorted m k h2 hk
    rw [hsk] at h3
    simp only at h3
    omega
  have hMb : ∀ g ∈ groups, ∀ i ∈ g.2.2, (s.getD i (0, 0)).1 ≤ bos := by
    intro g hg i hi
    have h := sorted_fst_mono s hsorted i k (hinv.mem_lt g hg i hi) hk
    rw [hsk] at h
    simpa using h
  rcases List.eq_nil_or_concat groups with hnil | ⟨pre, g, hcat⟩
  · subst hnil
    have hk0 : k = 0 := by
      have h := hinv.perm
      simp only [List.map_nil, List.flatten_nil] at h
      exact List.range_eq_nil.mp h.symm.eq_nil
    subst hk0
    refine ⟨?_, ?_, ?_, ?_, ?_, ?_, ?_⟩
    · simp [insert_span, List.range_succ]
    · intro g hg i hi
      simp [insert_span] at hg
      subst hg
      simp at hi
      omega
    · intro g hg
      simp [insert_span] at hg
      subst hg
      exact hbe
    · intro g hg i hi
      simp [insert_span] at hg
      subst hg
      simp at hi
      subst hi
      rw [hsk]
      exact ⟨le_refl _, le_refl _⟩
    · intro g hg
      simp [insert_span] at hg
      subst hg
      exact ⟨0, by simp, by rw [hsk]⟩
    · simp [insert_span]
    · intro g hg i hi j hj
      simp [insert_span] at hg
      subst hg
      simp at hi hj
      subst hi
      subst hj
      exact Relation.ReflTransGen.refl
  · rw [List.concat_eq_append] at hcat
    subst hcat
    have hgmem : g ∈ pre ++ [g] := by simp
    have hpre_le : ∀ g' ∈ pre, g'.2.1 ≤ g.1 := by
      have h := List.pairwise_append.mp hinv.chain
      exact fun g' hg' => h.2.2 g' hg' g (by simp)
    have hgbos : g.1 ≤ bos := hF1 g hgmem
    have hpre_false : ∀ g' ∈ pre, touches bos eos g' = false := by
      intro g' hg'
      have h1 : g'.2.1 ≤ g.1 := hpre_le g' hg'
      rw [Bool.eq_false_iff]
      intro hT
      rw [touches_iff] at hT
      omega
    have hsymm : Symmetric
        (fun a b => overlaps (s.getD a (0, 0)) (s.getD b (0, 0))) :=
      fun a b h => (overlaps_symm _ _).mp h
    by_cases hT : touches bos eos g = true
    · rw [insert_span_match_last k bos eos g hT pre hpre_false]
      have hbog : bos < g.2.1 := by
        rw [touches_iff] at hT
        omega
      obtain ⟨m, hm, hme⟩ := hinv.maxw g hgmem
      have hmk : m < k := hinv.mem_lt g hgmem m hm
      have hmb : (s.getD m (0, 0)).1 ≤ bos := hMb g hgmem m hm
      have hov : overlaps (s.getD m (0, 0)) (s.getD k (0, 0)) := by
        rw [hsk]
        unfold overlaps
        simp only
        omega
      refine ⟨?_, ?_, ?_, ?_, ?_, ?_, ?_⟩
      · have e1 : (((pre ++ [(min g.1 bos, max g.2.1 eos, g.2.2 ++ [k])]).map
            (fun g => g.2.2)).flatten : List Nat)
            = ((pre.map (fun g => g.2.2)).flatten ++ g.2.2) ++ [k] := by
          simp [List.flatten_append]
        have e2 : (((pre ++ [g]).map (fun g => g.2.2)).flatten : List Nat)
            = (pre.map (fun g => g.2.2)).flatten ++ g.2.2 := by
          simp [List.flatten_append]
        have hp := hinv.perm
        rw [e2] at hp
        rw [e1, List.range_succ]
        exact hp.append (List.Perm.refl [k])
      · intro g0 hg0 i hi
        rcases List.mem_append.mp hg0 with h0 | h0
        · have := hinv.mem_lt g0 (by simp [h0]) i hi
          omega
        · rw [List.mem_singleton] at h0
          subst h0
          simp only at hi
          rcases List.mem_append.mp hi with h1 | h1
          · have := hinv.mem_lt g hgmem i h1
            omega
          · rw [List.mem_singleton] at h1
            omega
      · intro g0 hg0
        rcases List.mem_append.mp hg0 with h0 | h0
        · exact hinv.wf g0 (by simp [h0])
        · rw [List.mem_singleton] at h0
          subst h0
          have h1 := hinv.wf g hgmem
          have h2 := min_le_left g.1 bos
          have h3 := le_max_left g.2.1 eos
          simp only
          omega
      · intro g0 hg0 i hi
        rcases List.mem_append.mp hg0 with h0 | h0
        · exact hinv.bound g0 (by simp [h0]) i hi
        · rw [List.mem_singleton] at h0
          subst h0
          simp only at hi ⊢
          rcases List.mem_append.mp hi with h1 | h1
          · have hb := hinv.bound g hgmem i h1
            have h2 := min_le_left g.1 bos
            have h3 := le_max_left g.2.1 eos
            omega
          · rw [List.mem_singleton] at h1
            subst h1
            rw [hsk]
            have h2 := min_le_right g.1 bos
            have h3 := le_max_right g.2.1 eos
            simp only
            omega
      · intro g0 hg0
        rcases List.mem_append.mp hg0 with h0 | h0
        · exact hinv.maxw g0 (by simp [h0])
        · rw [List.mem_singleton] at h0
          subst h0
          simp only
          rcases le_total g.2.1 eos with h1 | h1
          · refine ⟨k, by simp, ?_⟩
            rw [hsk]
            simp only
            omega
          · refine ⟨m, by simp [hm], ?_⟩
            rw [hme]
            omega
      · rw [List.pairwise_append]
        refine ⟨(List.pairwise_append.mp hinv.chain).1,
          List.pairwise_singleton _ _, ?_⟩
        intro a ha b hb
        rw [List.mem_singleton] at hb
        subst hb
        have h1 := hpre_le a ha
        have h2 : a.2.1 ≤ bos := by omega
        simp only
        omega
      · intro g0 hg0 i hi j hj
        rcases List.mem_append.mp hg0 with h0 | h0
        · exact hinv.connw g0 (by simp [h0]) i hi j hj
        · rw [List.mem_singleton] at h0
          subst h0
          simp only at hi hj
          rcases List.mem_append.mp hi with h1 | h1 <;>
            rcases List.mem_append.mp hj with h2 | h2
          · exact hinv.connw g hgmem i h1 j h2
          · rw [List.mem_singleton] at h2
            subst h2
            exact (hinv.connw g hgmem i h1 m hm).tail hov
          · rw [List.mem_singleton] at h1
            subst h1
            exact Relation.ReflTransGen.symmetric hsymm
              ((hinv.connw g hgmem j h2 m hm).tail hov)
          · rw [List.mem_singleton] at h1
            rw [List.mem_singleton] at h2
            subst h1
            subst h2
            exact Relation.ReflTransGen.refl
    · have hTf : touches bos eos g = false := by simpa using hT
      have hall : ∀ g' ∈ pre ++ [g], touches bos eos g' = false := by
        intro g' hg'
        rcases List.mem_append.mp hg' with h0 | h0
        · exact hpre_false g' h0
        · rw [List.mem_singleton] at h0
          subst h0
          exact hTf
      rw [insert_span_no_match k bos eos (pre ++ [g]) hall]
      have hgend : g.2.1 ≤ bos := by
        have h1 : ¬((g.1 ≤ bos ∧ bos < g.2.1) ∨ (g.1 < eos ∧ eos ≤ g.2.1)) :=
          fun h => (Bool.eq_false_iff.mp hTf) ((touches_iff bos eos g).mpr h)
        omega
      refine ⟨?_, ?_, ?_, ?_, ?_, ?_, ?_⟩
      · have e1 : ((((pre ++ [g]) ++ [(bos, eos, [k])]).map
            (fun g => g.2.2)).flatten : List Nat)
            = ((pre ++ [g]).map (fun g => g.2.2)).flatten ++ [k] := by
          simp [List.flatten_append]
        rw [e1, List.range_succ]
        exact hinv.perm.append (List.Perm.refl [k])
      · intro g0 hg0 i hi
        rcases List.mem_append.mp hg0 with h0 | h0
        · have := hinv.mem_lt g0 h0 i hi
          omega
        · rw [List.mem_singleton] at h0
          subst h0
          simp at hi
          omega
      · intro g0 hg0
        rcases List.mem_append.mp hg0 with h0 | h0
        · exact hinv.wf g0 h0
        · rw [List.mem_singleton] at h0
          subst h0
          exact hbe
      · intro g0 hg0 i hi
        rcases List.mem_append.mp hg0 with h0 | h0
        · exact hinv.bound g0 h0 i hi
        · rw [List.mem_singleton] at h0
          subst h0
          simp at hi
          subst hi
          rw [hsk]
          exact ⟨le_refl _, le_refl _⟩
      · intro g0 hg0
        rcases List.mem_append.mp hg0 with h0 | h0
        · exact hinv.maxw g0 h0
        · rw [List.mem_singleton] at h0
          subst h0
          exact ⟨k, by simp, by rw [hsk]⟩
      · rw [List.pairwise_append]
        refine ⟨hinv.chain, List.pairwise_singleton _ _, ?_⟩
        intro a ha b hb
        rw [List.mem_singleton] at hb
        subst hb
        simp only
        rcases List.mem_append.mp ha with h0 | h0
        · have h1 := hpre_le a h0
          omega
        · rw [List.mem_singleton] at h0
          subst h0
          exact hgend
      · intro g0 hg0 i hi j hj
        rcases List.mem_append.mp hg0 with h0 | h0
        · exact hinv.connw g0 h0 i hi j hj
        · rw [List.mem_singleton] at h0
          subst h0
          simp at hi hj
          subst hi
          subst hj
          exact Relation.ReflTransGen.refl

end Econll

namespace Econll

theorem fold_inv (s : List Span)
    (hsorted : s.Pairwise (fun a b => span_key_le a b = true))
    (hwfs : ∀ x ∈ s, x.1 < x.2) :
    ∀ (l : List Span) (j : Nat) (groups : List (Int × Int × List Nat)),
      s.drop j = l → GInv s j groups →
      GInv s (j + l.length)
        ((l.enumFrom j).foldl
          (fun groups ie => insert_span groups ie.1 ie.2.1 ie.2.2) groups) := by
  intro l
  induction l with
  | nil =>
      intro j groups _ hinv
      simpa using hinv
  | cons x l ih =>
      intro j groups hdrop hinv
      have hk : j < s.length := by
        have hlen := congrArg List.length hdrop
        rw [List.length_drop] at hlen
        simp only [List.length_cons] at hlen
        omega
      have hget : s.getD j (0, 0) = x := by
        have h0 := List.getElem?_drop s j 0
        rw [hdrop] at h0
        have h1 : s[j]? = some x := by simpa using h0.symm
        rw [List.getD_eq_getElem?_getD, h1]
        rfl
      have hdrop' : s.drop (j + 1) = l := by
        have h0 := List.drop_drop 1 j s
        rw [hdrop] at h0
        simpa using h0.symm
      have hstep := insert_span_inv s j x.1 x.2 hk (by rw [hget]) hsorted hwfs
        groups hinv
      have h := ih (j + 1) _ hdrop' hstep
      rw [List.enumFrom_cons, List.foldl_cons]
      have heq : j + (x :: l).length = (j + 1) + l.length := by
        rw [List.length_cons]
        omega
      rw [heq]
      exact h

theorem group_spans_inv (spans : List Span)
    (hwf : ∀ x ∈ spans, x.1 < x.2) :
    GInv (sorted_spans spans) (sorted_spans spans).length
      ((sorted_spans spans).enum.foldl
        (fun groups ie => insert_span groups ie.1 ie.2.1 ie.2.2) []) := by
  have hsorted : (sorted_spans spans).Pairwise
      (fun a b => span_key_le a b = true) :=
    py_sorted_pairwise span_key_le span_key_le_trans_c9 span_key_le_total_c9
      spans
  have hwfs : ∀ x ∈ sorted_spans spans, x.1 < x.2 :=
    fun x hx => hwf x ((py_sorted_perm span_key_le spans).mem_iff.mp hx)
  have h0 : GInv (sorted_spans spans) 0 [] := by
    refine ⟨by simp, by simp, by simp, by simp, by simp, by simp, by simp⟩
  have h := fold_inv (sorted_spans spans) hsorted hwfs (sorted_spans spans)
    0 [] (by simp) h0
  rw [Nat.zero_add] at h
  exact h

theorem ginv_sep (s : List Span) (groupsF : List (Int × Int × List Nat))
    (hinv : GInv s s.length groupsF) :
    ∀ ga ∈ groupsF, ∀ gb ∈ groupsF, ga ≠ gb →
      ∀ p ∈ ga.2.2, ∀ q ∈ gb.2.2,
        ¬ overlaps (s.getD p (0, 0)) (s.getD q (0, 0)) := by
  have hS : groupsF.Pairwise (fun ga gb => ∀ p ∈ ga.2.2, ∀ q ∈ gb.2.2,
      ¬ overlaps (s.getD p (0, 0)) (s.getD q (0, 0))) := by
    refine List.Pairwise.imp_of_mem ?_ hinv.chain
    intro ga gb hga hgb hR p hp q hq hov
    have h1 := (hinv.bound ga hga p hp).2
    have h2 := (hinv.bound gb hgb q hq).1
    unfold overlaps at hov
    omega
  have hSsym : Symmetric (fun (ga gb : Int × Int × List Nat) =>
      ∀ p ∈ ga.2.2, ∀ q ∈ gb.2.2,
      ¬ overlaps (s.getD p (0, 0)) (s.getD q (0, 0))) :=
    fun a b h p hp q hq hov => h q hq p hp ((overlaps_symm _ _).mp hov)
  intro ga hga gb hgb hne p hp q hq
  exact List.Pairwise.forall hSsym hS hga hgb hne p hp q hq

theorem conn_stays (s : List Span) (groupsF : List (Int × Int × List Nat))
    (hinv : GInv s s.length groupsF) (g : Int × Int × List Nat)
    (hg : g ∈ groupsF) (i j : Nat) (hi : i ∈ g.2.2)
    (hc : Relation.ReflTransGen
      (fun a b => overlaps (s.getD a (0, 0)) (s.getD b (0, 0))) i j) :
    j ∈ g.2.2 := by
  induction hc with
  | refl => exact hi
  | tail h1 h2 ih =>
      rename_i b c
      have hcn : c < s.length := by
        by_contra hge
        push_neg at hge
        have hd : s.getD c (0, 0) = (0, 0) := List.getD_eq_default s (0, 0) hge
        rw [hd] at h2
        unfold overlaps at h2
        simp only at h2
        omega
      have hcr : c ∈ (groupsF.map (fun g => g.2.2)).flatten :=
        (hinv.perm.mem_iff).mpr (List.mem_range.mpr hcn)
      rw [List.mem_flatten] at hcr
      obtain ⟨l, hl, hcl⟩ := hcr
      rw [List.mem_map] at hl
      obtain ⟨g', hg', rfl⟩ := hl
      by_cases hgg : g = g'
      · rw [hgg]
        exact hcl
      · exact absurd h2 (ginv_sep s groupsF hinv g hg g' hg' hgg b ih c hcl)

end Econll

/-- **C9.** Corrected span grouping: `group_spans` partitions positions in
the `(begin, -end)`-sorted order of the input (not input-list indices, see
the counterexample) into maximal overlap-connected components, provided all
spans are well-formed (`begin < end`): the groups' concatenation is a
permutation of `0..len(spans)-1`, and two positions share a group exactly
when their sorted-order spans are connected by a chain of pairwise
overlapping spans. -/
theorem C9_group_spans (spans : List Econll.Span)
    (hwf : ∀ x ∈ spans, x.1 < x.2) :
    (Econll.group_spans spans).flatten.Perm (List.range spans.length) ∧
    ∀ i j : Nat, i < spans.length → j < spans.length →
      (Econll.conn spans i j ↔
        ∃ g ∈ Econll.group_spans spans, i ∈ g ∧ j ∈ g) := by
  have hlen : (Econll.sorted_spans spans).length = spans.length :=
    (Econll.py_sorted_perm Econll.span_key_le spans).length_eq
  have hinv := Econll.group_spans_inv spans hwf
  rw [hlen] at hinv
  constructor
  · exact hinv.perm
  · intro i j hi hj
    constructor
    · intro hc
      have hif : i ∈ ((((Econll.sorted_spans spans).enum.foldl
          (fun groups ie => Econll.insert_span groups ie.1 ie.2.1 ie.2.2)
          []).map (fun g => g.2.2)).flatten : List Nat) :=
        (hinv.perm.mem_iff).mpr (List.mem_range.mpr hi)
      rw [List.mem_flatten] at hif
      obtain ⟨l, hl, hil⟩ := hif
      obtain ⟨G, hG, rfl⟩ := List.mem_map.mp hl
      have hinv' := Econll.group_spans_inv spans hwf
      have hjG : j ∈ G.2.2 :=
        Econll.conn_stays (Econll.sorted_spans spans) _ hinv' G hG i j hil hc
      exact ⟨G.2.2, List.mem_map.mpr ⟨G, hG, rfl⟩, hil, hjG⟩
    · rintro ⟨g, hg, hig, hjg⟩
      obtain ⟨G, hG, rfl⟩ := List.mem_map.mp hg
      exact hinv.connw G hG i hig j hjg

/-- C9 counterexample to the literal claim: the returned groups index the
`(begin, -end)`-sorted order, not the input list.  For the input
`[(5,7),(0,3),(2,4)]` the output is `[[0,1],[2]]`; input spans 1 = `(0,3)`
and 2 = `(2,4)` overlap, yet no output group contains both 1 and 2. -/
theorem C9_counterexample :
    Econll.group_spans [((5 : Int), (7 : Int)), (0, 3), (2, 4)]
      = [[0, 1], [2]] ∧
    Econll.overlaps
      (([((5 : Int), (7 : Int)), (0, 3), (2, 4)] :
        List Econll.Span).getD 1 (0, 0))
      (([((5 : Int), (7 : Int)), (0, 3), (2, 4)] :
        List Econll.Span).getD 2 (0, 0)) ∧
    ∀ g ∈ Econll.group_spans [((5 : Int), (7 : Int)), (0, 3), (2, 4)],
      ¬(1 ∈ g ∧ 2 ∈ g) := by
  refine ⟨by decide, by unfold Econll.overlaps; decide, by decide⟩

/-- C9 witness: the corrected grouping theorem applied to a concrete
well-formed span list. -/
theorem C9_group_spans_witness :
    (∀ x ∈ ([((0 : Int), (2 : Int)), (1, 3), (5, 6)] : List Econll.Span),
      x.1 < x.2) ∧
    ((Econll.group_spans [((0 : Int), (2 : Int)), (1, 3), (5, 6)]).flatten.Perm
        (List.range 3) ∧
      ∀ i j : Nat, i < 3 → j < 3 →
        (Econll.conn [((0 : Int), (2 : Int)), (1, 3), (5, 6)] i j ↔
          ∃ g ∈ Econll.group_spans [((0 : Int), (2 : Int)), (1, 3), (5, 6)],
            i ∈ g ∧ j ∈ g)) :=
  ⟨by decide,
    C9_group_spans [((0 : Int), (2 : Int)), (1, 3), (5, 6)] (by decide)⟩

/-- **C3.** Code bug in `align`'s coverage check: on
`align(["a","b",""], ["a","","b"], "ab")` the function returns
`[([0],[0,1]), ([1,2],[1,2])]` instead of raising, although target index 1
appears in two cells (the target lists are neither disjoint nor a
partition).  The second assert compares `len(target)` with the summed cell
sizes of `src_index` - a transcription of `tgt_index`'s role onto
`src_index` - so the duplicated target coverage (cell sizes 2+2 = 4 ≠ 3)
goes undetected. -/
theorem C3_align_coverage :
    Econll.align_lists ["a", "b", ""] ["a", "", "b"] "ab"
      = some [([0], [0, 1]), ([1, 2], [1, 2])] ∧
    ¬ List.Pairwise (fun u v => ∀ x ∈ u, x ∉ v)
        ([[0, 1], [1, 2]] : List (List Nat)) ∧
    (["a", "", "b"] : List String).length ≠
      (([[0, 1], [1, 2]] : List (List Nat)).map List.length).sum := by
  refine ⟨by decide, ?_, by decide⟩
  intro h
  have h1 := List.pairwise_cons.mp h
  exact h1.1 [1, 2] (by simp) 1 (by simp) (by simp)

/-- **C7.** (spec-modelled `xbase`) Rebase drop is non-fatal and reported:
`rebase_chunks` is total; every input chunk whose begin lacks a begin-map
entry or whose end lacks an end-map entry is reported (the `warn` list),
every other chunk appears in the output with begin and end translated
through the cross-base maps, and every output chunk arises that way; the
`test_rebaser.py` scenario drops exactly `("y",2,3)` and rebases the rest. -/
theorem C7_rebase_drop (chunks : List (String × Nat × Nat))
    (alignment : List (List Nat × List Nat)) :
    (∀ c ∈ chunks,
      ((Econll.dict_get (Econll.xbase alignment).1 c.2.1).isSome ∧
        (Econll.dict_get (Econll.xbase alignment).2 c.2.2).isSome) ∨
      c ∈ (Econll.rebase_chunks chunks alignment).1) ∧
    (∀ c ∈ (Econll.rebase_chunks chunks alignment).1,
      c ∈ chunks ∧
      ¬((Econll.dict_get (Econll.xbase alignment).1 c.2.1).isSome ∧
        (Econll.dict_get (Econll.xbase alignment).2 c.2.2).isSome)) ∧
    (∀ c ∈ chunks,
      (Econll.dict_get (Econll.xbase alignment).1 c.2.1).isSome →
      (Econll.dict_get (Econll.xbase alignment).2 c.2.2).isSome →
      (c.1, Econll.dict_getD (Econll.xbase alignment).1 c.2.1 0,
        Econll.dict_getD (Econll.xbase alignment).2 c.2.2 0) ∈
        (Econll.rebase_chunks chunks alignment).2) ∧
    (∀ d ∈ (Econll.rebase_chunks chunks alignment).2,
      ∃ c ∈ chunks,
        (Econll.dict_get (Econll.xbase alignment).1 c.2.1).isSome ∧
        (Econll.dict_get (Econll.xbase alignment).2 c.2.2).isSome ∧
        d = (c.1, Econll.dict_getD (Econll.xbase alignment).1 c.2.1 0,
          Econll.dict_getD (Econll.xbase alignment).2 c.2.2 0)) ∧
    Econll.rebase_chunks [("x", 0, 2), ("y", 2, 3), ("z", 4, 5)]
        [([0, 1], [0, 1]), ([2], [2, 3]), ([3, 4], [4]), ([5], [5])]
      = ([("y", 2, 3)], [("x", 0, 2), ("z", 3, 5)]) := by
  refine ⟨?_, ?_, ?_, ?_, by decide⟩
  · intro c hc
    by_cases hk : ((Econll.dict_get (Econll.xbase alignment).1 c.2.1).isSome &&
        (Econll.dict_get (Econll.xbase alignment).2 c.2.2).isSome) = true
    · left
      exact (Bool.and_eq_true _ _) ▸ hk
    · right
      simp only [Econll.rebase_chunks]
      rw [List.mem_filter]
      exact ⟨hc, by simp only [Bool.not_eq_true] at hk; simp [hk]⟩
  · intro c hc
    simp only [Econll.rebase_chunks] at hc
    rw [List.mem_filter] at hc
    refine ⟨hc.1, ?_⟩
    intro hcontra
    have h2 := hc.2
    rw [Bool.not_eq_eq_eq_not, Bool.not_true, Bool.and_eq_false_iff] at h2
    rcases h2 with h2 | h2 <;> rw [h2] at hcontra <;> simp at hcontra
  · intro c hc h1 h2
    simp only [Econll.rebase_chunks]
    rw [List.mem_map]
    refine ⟨c, ?_, rfl⟩
    rw [List.mem_filter]
    exact ⟨hc, by simp [h1, h2]⟩
  · intro d hd
    simp only [Econll.rebase_chunks] at hd
    rw [List.mem_map] at hd
    obtain ⟨c, hc, rfl⟩ := hd
    rw [List.mem_filter] at hc
    have hk : _ ∧ _ := (Bool.and_eq_true _ _) ▸ hc.2
    exact ⟨c, hc.1, hk.1, hk.2, rfl⟩

namespace Econll

theorem is_boc_tok_eq (cl : Label) (ca : Affix) (pl : Label) (pa : Affix) :
    is_boc_tok cl ca pl pa "O" = isa_boc pl pa cl ca := rfl

theorem is_eoc_tok_eq (cl : Label) (ca : Affix) (pl : Label) (pa : Affix) :
    is_eoc_tok cl ca pl pa "O" = isa_eoc pl pa cl ca := rfl

theorem annotate_boc_eq (data : List Pair) :
    annotate_boc data = get_boc data := rfl

theorem get_eoc_cons₂ (d r : Pair) (rs : List Pair) :
    get_eoc (d :: r :: rs) =
      isa_eoc d.1 d.2 r.1 r.2 :: get_eoc (r :: rs) := rfl

theorem get_eoc_split (data : List Pair) (hne : data ≠ []) :
    get_eoc data =
      (data.zip (data.drop 1)).map
        (fun pc => isa_eoc pc.1.1 pc.1.2 pc.2.1 pc.2.2) ++
      [isa_eoc (data.getLastD vout).1 (data.getLastD vout).2 none "O"] := by
  induction data with
  | nil => exact absurd rfl hne
  | cons d rest ih =>
      cases rest with
      | nil => rfl
      | cons r rs =>
          rw [get_eoc_cons₂, ih (by simp)]
          rfl

/-- The last-element eoc rule of `annotate` agrees with the parser's virtual
outside neighbor on valid pairs. -/
theorem isa_eoc_vout_valid (p : Pair) (hv : valid_pair p) :
    isa_eoc p.1 p.2 none "O" = (p.2 != "O") := by
  obtain ⟨l, a⟩ := p
  obtain ⟨hc, hm⟩ := hv
  simp only at hc hm
  fin_cases hm
  · have hl : l ≠ none := by
      intro h
      exact absurd (hc.mp h) (by decide)
    cases l with
    | none => exact absurd rfl hl
    | some x => rfl
  · have hl : l = none := hc.mpr rfl
    subst hl
    rfl
  · have hl : l ≠ none := by
      intro h
      exact absurd (hc.mp h) (by decide)
    cases l with
    | none => exact absurd rfl hl
    | some x => rfl
  · have hl : l ≠ none := by
      intro h
      exact absurd (hc.mp h) (by decide)
    cases l with
    | none => exact absurd rfl hl
    | some x => rfl
  · have hl : l ≠ none := by
      intro h
      exact absurd (hc.mp h) (by decide)
    cases l with
    | none => exact absurd rfl hl
    | some x => rfl

theorem annotate_eoc_eq (data : List Pair)
    (hv : ∀ p ∈ data, valid_pair p) :
    annotate_eoc data = get_eoc data := by
  cases data with
  | nil => rfl
  | cons d rest =>
      rw [get_eoc_split (d :: rest) (by simp), annotate_eoc]
      congr 1
      rw [isa_eoc_vout_valid ((d :: rest).getLastD vout)
        (hv _ (by
          have : (d :: rest).getLastD vout = (d :: rest).getLast (by simp) :=
            List.getLastD_eq_getLast? _ _ ▸ by
              rw [List.getLast?_eq_getLast _ (by simp)]
              rfl
          rw [this]
          exact List.getLast_mem _))]

end Econll

namespace Econll

theorem pos_boc_eq (seq : List Pair) (i : Nat) (hi : i < seq.length) :
    pos_boc seq i =
      isa_boc (if i = 0 then vout else pos_pair seq (i - 1)).1
              (if i = 0 then vout else pos_pair seq (i - 1)).2
              (pos_pair seq i).1 (pos_pair seq i).2 := by
  unfold pos_boc pos_pair
  have hb : i < (get_boc seq).length := by rw [get_boc_length]; exact hi
  rw [List.getD_eq_getElem _ false hb, get_boc_getElem seq i hb hi,
    List.getD_eq_getElem seq vout hi]

theorem pos_eoc_eq (seq : List Pair) (i : Nat) (hi : i < seq.length) :
    pos_eoc seq i =
      isa_eoc (pos_pair seq i).1 (pos_pair seq i).2
              (pos_pair seq (i + 1)).1 (pos_pair seq (i + 1)).2 := by
  unfold pos_eoc pos_pair
  have hb : i < (get_eoc seq).length := by rw [get_eoc_length]; exact hi
  rw [List.getD_eq_getElem _ false hb, get_eoc_getElem seq i hb hi,
    List.getD_eq_getElem seq vout hi]

theorem pos_pair_mem (seq : List Pair) (i : Nat) (hi : i < seq.length) :
    pos_pair seq i ∈ seq := by
  unfold pos_pair
  rw [List.getD_eq_getElem seq vout hi]
  exact List.getElem_mem hi

theorem pos_pair_default (seq : List Pair) (i : Nat) (hi : seq.length ≤ i) :
    pos_pair seq i = vout := List.getD_eq_default seq vout hi

theorem isa_boc_oaffix (pl : Label) (pa : Affix) (cl : Label) :
    isa_boc pl pa cl "O" = false := by
  simp [isa_boc]

theorem isa_eoc_oaffix (pl : Label) (cl : Label) (ca : Affix) :
    isa_eoc pl "O" cl ca = false := by
  simp [isa_eoc]

theorem isa_boc_start (pa : Affix) (x : String) (ca : Affix)
    (hca : ca ≠ "O") :
    isa_boc none pa (some x) ca = true := by
  simp [isa_boc, bne, hca]

theorem isa_eoc_close (x : String) (pa : Affix) (ca : Affix)
    (hpa : pa ≠ "O") :
    isa_eoc (some x) pa none ca = true := by
  simp [isa_eoc, bne, hpa]

theorem isa_boc_labels_ne (pl cl : Label) (pa ca : Affix)
    (hne : pl ≠ cl) (hca : ca ≠ "O") :
    isa_boc pl pa cl ca = true := by
  simp [isa_boc, bne, hca, hne]

theorem isa_eoc_labels_ne (pl cl : Label) (pa ca : Affix)
    (hne : pl ≠ cl) (hpa : pa ≠ "O") :
    isa_eoc pl pa cl ca = true := by
  simp [isa_eoc, bne, hpa, hne]

theorem isa_eoc_false_labels (pl cl : Label) (pa ca : Affix)
    (hpa : pa ≠ "O") (h : isa_eoc pl pa cl ca = false) : pl = cl := by
  by_contra hne
  rw [isa_eoc_labels_ne pl cl pa ca hne hpa] at h
  exact absurd h (by simp)

/-- Boundary coherence on valid both-labeled boundaries: the end-of-chunk
flag of the left token equals the begin-of-chunk flag of the right token. -/
theorem isa_boc_eq_isa_eoc (x y : String) (pa ca : Affix)
    (hpa : pa ∈ iobes_list) (hpaO : pa ≠ "O")
    (hca : ca ∈ iobes_list) (hcaO : ca ≠ "O") :
    isa_boc (some x) pa (some y) ca = isa_eoc (some x) pa (some y) ca := by
  fin_cases hpa <;> fin_cases hca <;>
    first
    | exact absurd rfl hpaO
    | exact absurd rfl hcaO
    | (by_cases hxy : x = y <;> simp [isa_boc, isa_eoc, hxy])

end Econll

namespace Econll

theorem canon_none (b e : Bool) : canon_affix none b e = "O" := rfl

theorem canon_some_ne_O (x : String) (b e : Bool) :
    canon_affix (some x) b e ≠ "O" := by
  cases b <;> cases e <;> simp [canon_affix]

theorem canon_BS (x : String) (b e : Bool) :
    ((canon_affix (some x) b e == "B") || (canon_affix (some x) b e == "S"))
      = b := by
  cases b <;> cases e <;> rfl

theorem canon_ES (x : String) (b e : Bool) :
    ((canon_affix (some x) b e == "E") || (canon_affix (some x) b e == "S"))
      = e := by
  cases b <;> cases e <;> rfl

theorem canon_IE (x : String) (b e : Bool) :
    ((canon_affix (some x) b e == "I") || (canon_affix (some x) b e == "E"))
      = !b := by
  cases b <;> cases e <;> rfl

theorem canon_BI (x : String) (b e : Bool) :
    ((canon_affix (some x) b e == "B") || (canon_affix (some x) b e == "I"))
      = !e := by
  cases b <;> cases e <;> rfl

theorem canon_O_false (x : String) (b e : Bool) :
    (canon_affix (some x) b e == "O") = false := by
  cases b <;> cases e <;> rfl

theorem scheme_fn_iobes (a : String) : scheme_fn "IOBES" a = a := rfl

theorem zip3_flags_length (seq : List Pair) :
    (zip3 (get_boc seq) (get_eoc seq) seq).length = seq.length := by
  simp [zip3_length, get_boc_length, get_eoc_length]

theorem convert_core_getD (seq : List Pair) (s : String) (i : Nat)
    (hi : i < seq.length) :
    (convert_core seq s).getD i vout =
      ((pos_pair seq i).1,
        scheme_fn s (canon_affix (pos_pair seq i).1
          (pos_boc seq i) (pos_eoc seq i))) := by
  unfold convert_core
  have hzl : (zip3 (get_boc seq) (get_eoc seq) seq).length = seq.length :=
    zip3_flags_length seq
  have hb : i < (get_boc seq).length := by rw [get_boc_length]; exact hi
  have he : i < (get_eoc seq).length := by rw [get_eoc_length]; exact hi
  rw [List.getD_eq_getElem _ vout (by rw [List.length_map, hzl]; exact hi),
    List.getElem_map,
    zip3_getElem (get_boc seq) (get_eoc seq) seq i (by rwa [hzl]) hb he hi]
  simp only [List.get_eq_getElem]
  unfold pos_pair pos_boc pos_eoc
  rw [List.getD_eq_getElem seq vout hi, List.getD_eq_getElem _ false hb,
    List.getD_eq_getElem _ false he]

theorem affix_chunk_length (n : Nat) : (affix_chunk n).length = n := by
  by_cases h1 : n < 1
  · simp [affix_chunk, h1]
    omega
  · by_cases h2 : n = 1
    · subst h2
      rfl
    · simp [affix_chunk, h1, h2]
      omega

theorem token_chunk_length (lab : Label) (b e : Nat) :
    (token_chunk lab b e).length = e - b := by
  simp [token_chunk, affix_chunk_length]

theorem token_chunk_getD (lab : Label) (b e k : Nat) (hk : k < e - b) :
    (token_chunk lab b e).getD k vout =
      (lab, (affix_chunk (e - b)).getD k "O") := by
  unfold token_chunk
  have hr : k < (List.replicate (e - b) lab).length := by simp; omega
  have ha : k < (affix_chunk (e - b)).length := by
    rw [affix_chunk_length]; omega
  have h1 : k < ((List.replicate (e - b) lab).zip
      (affix_chunk (e - b))).length := by
    rw [List.length_zip]
    omega
  rw [List.getD_eq_getElem _ vout h1, List.getElem_zip]
  rw [List.getElem_replicate, List.getD_eq_getElem _ "O" ha]

theorem affix_chunk_one : affix_chunk 1 = ["S"] := rfl

theorem affix_chunk_getD_first (n : Nat) (hn : 2 ≤ n) :
    (affix_chunk n).getD 0 "O" = "B" := by
  unfold affix_chunk
  rw [if_neg (by omega), if_neg (by simp; omega)]
  rfl

theorem affix_chunk_getD_last (n : Nat) (hn : 2 ≤ n) :
    (affix_chunk n).getD (n - 1) "O" = "E" := by
  unfold affix_chunk
  rw [if_neg (by omega), if_neg (by simp; omega)]
  have h1 : n - 1 = (n - 2) + 1 := by omega
  rw [h1, List.getD_cons_succ]
  have h2 : n - 2 < (List.replicate (n - 2) "I" ++ ["E"]).length := by
    simp
  rw [List.getD_eq_getElem _ "O" h2,
    List.getElem_append_right (by simp)]
  simp

theorem affix_chunk_getD_mid (n k : Nat) (hk1 : 1 ≤ k) (hk2 : k < n - 1) :
    (affix_chunk n).getD k "O" = "I" := by
  unfold affix_chunk
  rw [if_neg (by omega), if_neg (by simp; omega)]
  have h1 : k = (k - 1) + 1 := by omega
  rw [h1, List.getD_cons_succ]
  have h2 : k - 1 < (List.replicate (n - 2) "I" ++ ["E"]).length := by
    simp
    omega
  rw [List.getD_eq_getElem _ "O" h2,
    List.getElem_append_left (by simp; omega)]
  simp

end Econll

namespace Econll

theorem splice_parts (L : List Pair) (n b e : Nat) (lab : Label)
    (hL : L.length = n) (hbe : b < e) (hen : e ≤ n) :
    (L.take b ++ token_chunk lab b e ++ L.drop e).length = n ∧
    (∀ i, i < b →
      (L.take b ++ token_chunk lab b e ++ L.drop e).getD i vout
        = L.getD i vout) ∧
    (∀ i, b ≤ i → i < e →
      (L.take b ++ token_chunk lab b e ++ L.drop e).getD i vout
        = (lab, (affix_chunk (e - b)).getD (i - b) "O")) ∧
    (∀ i, e ≤ i →
      (L.take b ++ token_chunk lab b e ++ L.drop e).getD i vout
        = L.getD i vout) := by
  have htk : (L.take b).length = b := by
    rw [List.length_take]
    omega
  have htc : (token_chunk lab b e).length = e - b := token_chunk_length lab b e
  have hdr : (L.drop e).length = n - e := by
    rw [List.length_drop, hL]
  have hlen : (L.take b ++ token_chunk lab b e ++ L.drop e).length = n := by
    simp only [List.length_append, htk, htc, hdr]
    omega
  refine ⟨hlen, ?_, ?_, ?_⟩
  · intro i hi
    have h1 : i < (L.take b ++ token_chunk lab b e ++ L.drop e).length := by
      omega
    have h2 : i < L.length := by omega
    rw [List.getD_eq_getElem _ vout h1, List.getD_eq_getElem _ vout h2]
    rw [List.getElem_append_left (by rw [List.length_append, htk, htc]; omega)]
    rw [List.getElem_append_left (by rw [htk]; omega)]
    exact List.getElem_take ..
  · intro i hbi hie
    have h1 : i < (L.take b ++ token_chunk lab b e ++ L.drop e).length := by
      omega
    rw [List.getD_eq_getElem _ vout h1]
    rw [List.getElem_append_left (by rw [List.length_append, htk, htc]; omega)]
    rw [List.getElem_append_right (by rw [htk]; omega)]
    simp only [htk]
    have h4 := token_chunk_getD lab b e (i - b) (by omega)
    rw [List.getD_eq_getElem _ vout
      (by rw [token_chunk_length]; omega)] at h4
    exact h4
  · intro i hei
    by_cases hin : i < n
    · have h1 : i < (L.take b ++ token_chunk lab b e ++ L.drop e).length := by
        omega
      have h2 : i < L.length := by omega
      rw [List.getD_eq_getElem _ vout h1, List.getD_eq_getElem _ vout h2]
      rw [List.getElem_append_right
        (by rw [List.length_append, htk, htc]; omega)]
      have h3 : i - (L.take b ++ token_chunk lab b e).length
          < (L.drop e).length := by
        rw [List.length_append, htk, htc, hdr]
        omega
      rw [List.getElem_drop]
      congr 1
      rw [List.length_append, htk, htc]
      omega
    · rw [List.getD_eq_default _ vout (by omega),
        List.getD_eq_default _ vout (by omega)]

end Econll

namespace Econll

theorem boc_next (seq : List Pair) (hv : ∀ p ∈ seq, valid_pair p) (j : Nat)
    (hjn : j < seq.length)
    (hcase : (pos_pair seq j).1 = none ∨ pos_eoc seq j = true) :
    j + 1 < seq.length → (pos_pair seq (j + 1)).2 ≠ "O" →
      pos_boc seq (j + 1) = true := by
  intro hj1 haff
  have hvj1 := hv _ (pos_pair_mem seq (j + 1) hj1)
  have hsome : (pos_pair seq (j + 1)).1 ≠ none := fun h => haff (hvj1.1.mp h)
  obtain ⟨y, hy⟩ := Option.ne_none_iff_exists'.mp hsome
  have heq := pos_boc_eq seq (j + 1) hj1
  rw [if_neg (by omega)] at heq
  have hj0 : j + 1 - 1 = j := by omega
  rw [hj0] at heq
  have hvjj := hv _ (pos_pair_mem seq j hjn)
  by_cases hpn : (pos_pair seq j).1 = none
  · have hoaff : (pos_pair seq j).2 = "O" := hvjj.1.mp hpn
    rw [hpn, hoaff, hy] at heq
    rw [heq]
    exact isa_boc_start _ y _ haff
  · rcases hcase with hnone | heoc
    · exact absurd hnone hpn
    · obtain ⟨x, hx⟩ := Option.ne_none_iff_exists'.mp hpn
      have hpaO : (pos_pair seq j).2 ≠ "O" := fun h => hpn (hvjj.1.mpr h)
      have hee := pos_eoc_eq seq j hjn
      rw [hx, hy] at heq hee
      rw [heq, isa_boc_eq_isa_eoc x y _ _ hvjj.2 hpaO hvj1.2 haff, ← hee]
      exact heoc

theorem open_next_labeled (seq : List Pair) (hv : ∀ p ∈ seq, valid_pair p)
    (j : Nat) (hj1 : 1 ≤ j) (hjn : j < seq.length)
    (hlabprev : (pos_pair seq (j - 1)).1 ≠ none)
    (hech : pos_eoc seq (j - 1) = false) :
    (pos_pair seq j).1 ≠ none := by
  intro h
  obtain ⟨x, hx⟩ := Option.ne_none_iff_exists'.mp hlabprev
  have hvp := hv _ (pos_pair_mem seq (j - 1) (by omega))
  have hpaO : (pos_pair seq (j - 1)).2 ≠ "O" := fun h2 => hlabprev (hvp.1.mpr h2)
  have hee := pos_eoc_eq seq (j - 1) (by omega)
  have hj0 : j - 1 + 1 = j := by omega
  rw [hj0, hx, h] at hee
  rw [isa_eoc_close x _ _ hpaO] at hee
  rw [hech] at hee
  exact absurd hee.symm (by simp)

theorem open_boc_false (seq : List Pair) (hv : ∀ p ∈ seq, valid_pair p)
    (j : Nat) (hj1 : 1 ≤ j) (hjn : j < seq.length)
    (hlabprev : (pos_pair seq (j - 1)).1 ≠ none)
    (hech : pos_eoc seq (j - 1) = false) :
    pos_boc seq j = false := by
  have hlabj := open_next_labeled seq hv j hj1 hjn hlabprev hech
  obtain ⟨x, hx⟩ := Option.ne_none_iff_exists'.mp hlabprev
  obtain ⟨y, hy⟩ := Option.ne_none_iff_exists'.mp hlabj
  have hvp := hv _ (pos_pair_mem seq (j - 1) (by omega))
  have hvc := hv _ (pos_pair_mem seq j hjn)
  have hpaO : (pos_pair seq (j - 1)).2 ≠ "O" :=
    fun h2 => hlabprev (hvp.1.mpr h2)
  have hcaO : (pos_pair seq j).2 ≠ "O" := fun h2 => hlabj (hvc.1.mpr h2)
  have heq := pos_boc_eq seq j hjn
  rw [if_neg (by omega)] at heq
  have hee := pos_eoc_eq seq (j - 1) (by omega)
  have hj0 : j - 1 + 1 = j := by omega
  rw [hj0] at hee
  rw [hx, hy] at heq hee
  rw [heq, isa_boc_eq_isa_eoc x y _ _ hvp.2 hpaO hvc.2 hcaO, ← hee]
  exact hech

theorem stretch_extend (seq : List Pair) (hv : ∀ p ∈ seq, valid_pair p)
    (j : Nat) (hj1 : 1 ≤ j) (hjn : j < seq.length)
    (hlabprev : (pos_pair seq (j - 1)).1 ≠ none)
    (hech : pos_eoc seq (j - 1) = false) :
    (pos_pair seq j).1 = (pos_pair seq (j - 1)).1 := by
  obtain ⟨x, hx⟩ := Option.ne_none_iff_exists'.mp hlabprev
  have hvp := hv _ (pos_pair_mem seq (j - 1) (by omega))
  have hpaO : (pos_pair seq (j - 1)).2 ≠ "O" :=
    fun h2 => hlabprev (hvp.1.mpr h2)
  have hee := pos_eoc_eq seq (j - 1) (by omega)
  have hj0 : j - 1 + 1 = j := by omega
  rw [hj0, hx] at hee
  rw [hech] at hee
  have := isa_eoc_false_labels (some x) (pos_pair seq j).1 _ _ hpaO hee.symm
  rw [hx]
  exact this.symm

theorem splice_fold_cons (c : Label × Nat × Nat)
    (CH : List (Label × Nat × Nat)) (L : List Pair) :
    splice_fold (c :: CH) L =
      splice_fold CH
        (L.take c.2.1 ++ token_chunk c.1 c.2.1 c.2.2 ++ L.drop c.2.2) := rfl

end Econll

namespace Econll

theorem get_chunks_splice (seq : List Pair) (hv : ∀ p ∈ seq, valid_pair p) :
    ∀ (l : List (Pair × Bool × Bool)) (j b : Nat) (L : List Pair),
      (zip3 seq (get_boc seq) (get_eoc seq)).drop j = l →
      L.length = seq.length →
      (((∀ i, i < j →
            L.getD i vout = (convert_core seq "IOBES").getD i vout) ∧
        (∀ i, j ≤ i → L.getD i vout = vout) ∧
        (j < seq.length → (pos_pair seq j).2 ≠ "O" → pos_boc seq j = true))
       ∨
       (b < j ∧ j ≤ seq.length ∧
        (pos_pair seq b).1 ≠ none ∧
        pos_boc seq b = true ∧
        (∀ i, b ≤ i → i < j → (pos_pair seq i).1 = (pos_pair seq b).1) ∧
        (∀ i, b ≤ i → i < j → pos_eoc seq i = false) ∧
        (∀ i, b < i → i < j → pos_boc seq i = false) ∧
        (∀ i, i < b →
            L.getD i vout = (convert_core seq "IOBES").getD i vout) ∧
        (∀ i, b ≤ i → L.getD i vout = vout))) →
      splice_fold (get_chunks_go j b l) L = convert_core seq "IOBES" := by
  have hzl : (zip3 seq (get_boc seq) (get_eoc seq)).length = seq.length := by
    simp [zip3_length, get_boc_length, get_eoc_length]
  intro l
  induction l with
  | nil =>
      intro j b L hdrop hL hstate
      have hn : seq.length ≤ j := by
        have h := congrArg List.length hdrop
        rw [List.length_drop] at h
        simp only [List.length_nil] at h
        omega
      rcases hstate with ⟨hagree, _, _⟩ |
        ⟨hbj, hjn, hlab, _, hstretch, hnoe, _, _, _⟩
      · show L = convert_core seq "IOBES"
        have hTlen : (convert_core seq "IOBES").length = seq.length :=
          convert_core_length seq "IOBES"
        apply List.ext_getElem (by rw [hL, hTlen])
        intro i h1 h2
        have hi : i < seq.length := by rwa [hL] at h1
        have h3 := hagree i (by omega)
        rwa [List.getD_eq_getElem _ vout h1,
          List.getD_eq_getElem _ vout h2] at h3
      · exfalso
        have hj : j = seq.length := by omega
        have hvl := hv _ (pos_pair_mem seq (seq.length - 1) (by omega))
        have hlabl : (pos_pair seq (seq.length - 1)).1 = (pos_pair seq b).1 :=
          hstretch _ (by omega) (by omega)
        have hsome : (pos_pair seq (seq.length - 1)).1 ≠ none := by
          rw [hlabl]
          exact hlab
        obtain ⟨x, hx⟩ := Option.ne_none_iff_exists'.mp hsome
        have haff : (pos_pair seq (seq.length - 1)).2 ≠ "O" :=
          fun h => hsome (hvl.1.mpr h)
        have heq := pos_eoc_eq seq (seq.length - 1) (by omega)
        have hnext : pos_pair seq ((seq.length - 1) + 1) = vout :=
          pos_pair_default seq _ (by omega)
        rw [hnext, hx, show (vout : Pair).1 = none from rfl,
          show (vout : Pair).2 = "O" from rfl,
          isa_eoc_close x _ _ haff] at heq
        have h5 := hnoe (seq.length - 1) (by omega) (by omega)
        rw [h5] at heq
        exact absurd heq (by simp)
  | cons x l' ih =>
      intro j b L hdrop hL hstate
      have hjn : j < seq.length := by
        have h := congrArg List.length hdrop
        rw [List.length_drop] at h
        simp only [List.length_cons] at h
        omega
      have hxval : x = (pos_pair seq j, pos_boc seq j, pos_eoc seq j) := by
        have h0 := List.getElem?_drop (zip3 seq (get_boc seq) (get_eoc seq)) j 0
        rw [hdrop] at h0
        have h1 : (zip3 seq (get_boc seq) (get_eoc seq))[j]? = some x := by
          simpa using h0.symm
        have hj2 : j < (zip3 seq (get_boc seq) (get_eoc seq)).length := by
          omega
        rw [List.getElem?_eq_getElem hj2] at h1
        have h3 := zip3_getElem seq (get_boc seq) (get_eoc seq) j hj2 hjn
          (by rw [get_boc_length]; omega) (by rw [get_eoc_length]; omega)
        have h4 : x = (zip3 seq (get_boc seq) (get_eoc seq))[j] := by
          injection h1 with h1'
          exact h1'.symm
        rw [h4, h3]
        simp only [List.get_eq_getElem]
        unfold pos_pair pos_boc pos_eoc
        rw [List.getD_eq_getElem seq vout hjn,
          List.getD_eq_getElem _ false (by rw [get_boc_length]; omega),
          List.getD_eq_getElem _ false (by rw [get_eoc_length]; omega)]
      have hdrop' :
          (zip3 seq (get_boc seq) (get_eoc seq)).drop (j + 1) = l' := by
        have h0 := List.drop_drop 1 j (zip3 seq (get_boc seq) (get_eoc seq))
        rw [hdrop] at h0
        simpa using h0.symm
      subst hxval
      have hvj := hv _ (pos_pair_mem seq j hjn)
      have hTlen : (convert_core seq "IOBES").length = seq.length :=
        convert_core_length seq "IOBES"
      rcases hstate with ⟨hagree, hvout, hnext⟩ |
        ⟨hbj, hjle, hlab, hboc, hstretch, hnoe, hnob, hagree, hvout⟩
      · -- closed state
        by_cases ho : (pos_pair seq j).2 = "O"
        · -- outside token: skip
          have hlabn : (pos_pair seq j).1 = none := hvj.1.mpr ho
          have hbocf : pos_boc seq j = false := by
            have heq := pos_boc_eq seq j hjn
            rw [ho, isa_boc_oaffix] at heq
            exact heq
          have heocf : pos_eoc seq j = false := by
            have heq := pos_eoc_eq seq j hjn
            rw [ho, isa_eoc_oaffix] at heq
            exact heq
          simp only [get_chunks_go, hbocf, heocf, Bool.false_and,
            Bool.and_false, Bool.false_eq_true, if_false]
          apply ih (j + 1) b L hdrop' hL
          left
          refine ⟨?_, fun i hi => hvout i (by omega), ?_⟩
          · intro i hi
            by_cases hij : i < j
            · exact hagree i hij
            · have hij' : i = j := by omega
              subst hij'
              rw [hvout i le_rfl, convert_core_getD seq _ i hjn, hlabn,
                canon_none, scheme_fn_iobes]
              rfl
          · exact boc_next seq hv j hjn (Or.inl hlabn)
        · -- labeled token
          have hlabs : (pos_pair seq j).1 ≠ none := fun h => ho (hvj.1.mp h)
          obtain ⟨x, hx⟩ := Option.ne_none_iff_exists'.mp hlabs
          have hboct : pos_boc seq j = true := hnext hjn ho
          by_cases he : pos_eoc seq j = true
          · -- single-token chunk
            simp only [get_chunks_go, hboct, he, Bool.and_self, if_true]
            rw [splice_fold_cons]
            obtain ⟨hlen', hlow, hmid, hhigh⟩ :=
              splice_parts L seq.length j (j + 1) (pos_pair seq j).1 hL
                (by omega) (by omega)
            apply ih (j + 1) b _ hdrop' hlen'
            left
            refine ⟨?_, ?_, boc_next seq hv j hjn (Or.inr he)⟩
            · intro i hi
              by_cases hij : i < j
              · rw [hlow i hij]
                exact hagree i hij
              · have hij' : i = j := by omega
                subst hij'
                rw [hmid i le_rfl (by omega)]
                rw [convert_core_getD seq _ i hjn, scheme_fn_iobes, hx,
                  hboct, he]
                have harith : i + 1 - i = 1 := by omega
                have harith2 : i - i = 0 := by omega
                rw [harith, harith2, affix_chunk_one]
                rfl
            · intro i hi
              rw [hhigh i (by omega)]
              exact hvout i (by omega)
          · -- open a new chunk
            have hef : pos_eoc seq j = false := by simpa using he
            simp only [get_chunks_go, hboct, hef, Bool.true_and,
              Bool.and_true, Bool.not_false, Bool.false_eq_true, if_false,
              if_true]
            apply ih (j + 1) j L hdrop' hL
            right
            refine ⟨by omega, by omega, hlabs, hboct, ?_, ?_, ?_, ?_, ?_⟩
            · intro i h1 h2
              have : i = j := by omega
              subst this
              rfl
            · intro i h1 h2
              have : i = j := by omega
              subst this
              exact hef
            · intro i h1 h2
              omega
            · intro i hi
              exact hagree i (by omega)
            · intro i hi
              exact hvout i hi
      · -- open state
        have hj1 : 1 ≤ j := by omega
        have hlabprev : (pos_pair seq (j - 1)).1 ≠ none := by
          rw [hstretch (j - 1) (by omega) (by omega)]
          exact hlab
        have hech : pos_eoc seq (j - 1) = false :=
          hnoe (j - 1) (by omega) (by omega)
        have hlabj : (pos_pair seq j).1 ≠ none :=
          open_next_labeled seq hv j hj1 hjn hlabprev hech
        have hbocf : pos_boc seq j = false :=
          open_boc_false seq hv j hj1 hjn hlabprev hech
        have hlabeq : (pos_pair seq j).1 = (pos_pair seq b).1 := by
          rw [stretch_extend seq hv j hj1 hjn hlabprev hech]
          exact hstretch (j - 1) (by omega) (by omega)
        by_cases he : pos_eoc seq j = true
        · -- close the chunk
          simp only [get_chunks_go, hbocf, he, Bool.false_and,
            Bool.true_and, Bool.and_true, Bool.not_false, Bool.false_eq_true,
            if_false, if_true]
          rw [splice_fold_cons]
          obtain ⟨hlen', hlow, hmid, hhigh⟩ :=
            splice_parts L seq.length b (j + 1) (pos_pair seq j).1 hL
              (by omega) (by omega)
          apply ih (j + 1) b _ hdrop' hlen'
          left
          refine ⟨?_, ?_, boc_next seq hv j hjn (Or.inr he)⟩
          · intro i hi
            by_cases hib : i < b
            · rw [hlow i hib]
              exact hagree i hib
            · have hib' : b ≤ i := by omega
              have hij : i < j + 1 := by omega
              rw [hmid i hib' hij]
              have hiv := hv _ (pos_pair_mem seq i (by omega))
              have hilab : (pos_pair seq i).1 = (pos_pair seq b).1 := by
                by_cases hij' : i < j
                · exact hstretch i hib' hij'
                · have : i = j := by omega
                  subst this
                  exact hlabeq
              rw [convert_core_getD seq _ i (by omega), scheme_fn_iobes]
              have hlen2 : 2 ≤ j + 1 - b := by omega
              by_cases hib2 : i = b
              · subst hib2
                have hez : pos_eoc seq i = false := hnoe i le_rfl (by omega)
                rw [hboc, hez]
                have harith : i - i = 0 := by omega
                rw [harith, affix_chunk_getD_first _ hlen2]
                obtain ⟨z, hz⟩ := Option.ne_none_iff_exists'.mp hlab
                rw [hilab, hz]
                have hiz : (pos_pair seq j).1 = some z := by
                  rw [hlabeq, hz]
                rw [hiz]
                rfl
              · by_cases hij' : i < j
                · have hbz : pos_boc seq i = false := hnob i (by omega) hij'
                  have hez : pos_eoc seq i = false := hnoe i hib' hij'
                  rw [hbz, hez]
                  have harith : 1 ≤ i - b ∧ i - b < j + 1 - b - 1 := by omega
                  rw [affix_chunk_getD_mid _ _ harith.1 harith.2]
                  obtain ⟨z, hz⟩ := Option.ne_none_iff_exists'.mp hlab
                  rw [hilab, hz]
                  have hiz : (pos_pair seq j).1 = some z := by
                    rw [hlabeq, hz]
                  rw [hiz]
                  rfl
                · have hij2 : i = j := by omega
                  subst hij2
                  rw [hbocf, he]
                  have harith : i - b = i + 1 - b - 1 := by omega
                  rw [harith, affix_chunk_getD_last _ hlen2]
                  obtain ⟨z, hz⟩ := Option.ne_none_iff_exists'.mp hlab
                  rw [hilab, hz]
                  rfl
          · intro i hi
            rw [hhigh i (by omega)]
            exact hvout i (by omega)
        · -- extend the open chunk
          have hef : pos_eoc seq j = false := by simpa using he
          simp only [get_chunks_go, hbocf, hef, Bool.false_and,
            Bool.and_false, Bool.false_eq_true, if_false]
          apply ih (j + 1) b L hdrop' hL
          right
          refine ⟨by omega, by omega, hlab, hboc, ?_, ?_, ?_, hagree, hvout⟩
          · intro i h1 h2
            by_cases hij : i < j
            · exact hstretch i h1 hij
            · have : i = j := by omega
              subst this
              exact hlabeq
          · intro i h1 h2
            by_cases hij : i < j
            · exact hnoe i h1 hij
            · have : i = j := by omega
              subst this
              exact hef
          · intro i h1 h2
            by_cases hij : i < j
            · exact hnob i h1 hij
            · have : i = j := by omega
              subst this
              exact hbocf

end Econll

namespace Econll

theorem replicate_getD (n i : Nat) : (List.replicate n vout).getD i vout = vout := by
  by_cases h : i < n
  · rw [List.getD_eq_getElem _ vout (by simpa using h)]
    exact List.getElem_replicate ..
  · exact List.getD_eq_default _ vout (by simpa using h)

theorem get_chunks_splice_main (seq : List Pair)
    (hv : ∀ p ∈ seq, valid_pair p) :
    splice_fold (get_chunks seq) (List.replicate seq.length vout)
      = convert_core seq "IOBES" := by
  unfold get_chunks
  rw [annotate_boc_eq, annotate_eoc_eq seq hv]
  apply get_chunks_splice seq hv _ 0 0 _ rfl (by simp)
  left
  refine ⟨fun i hi => absurd hi (by omega), fun i _ => replicate_getD _ _, ?_⟩
  intro h0 haff
  have hvv := hv _ (pos_pair_mem seq 0 h0)
  have hsome : (pos_pair seq 0).1 ≠ none := fun h => haff (hvv.1.mp h)
  obtain ⟨y, hy⟩ := Option.ne_none_iff_exists'.mp hsome
  have heq := pos_boc_eq seq 0 h0
  rw [if_pos rfl, hy, show (vout : Pair).1 = none from rfl,
    show (vout : Pair).2 = "O" from rfl] at heq
  rw [heq]
  exact isa_boc_start _ y _ haff

/-- The canonical IOBES form of a valid sequence is valid. -/
theorem convert_core_iobes_valid (seq : List Pair)
    (hv : ∀ p ∈ seq, valid_pair p) :
    ∀ p ∈ convert_core seq "IOBES", valid_pair p := by
  intro p hp
  obtain ⟨i, hi, hip⟩ := List.mem_iff_getElem.mp hp
  have hi' : i < seq.length := by
    rwa [convert_core_length] at hi
  have h1 : (convert_core seq "IOBES").getD i vout = p := by
    rw [List.getD_eq_getElem _ vout hi]
    exact hip
  rw [convert_core_getD seq _ i hi', scheme_fn_iobes] at h1
  subst h1
  constructor
  · constructor
    · intro h
      simp only at h
      rw [h, canon_none]
    · intro h
      simp only at h ⊢
      by_contra hne
      obtain ⟨x, hx⟩ := Option.ne_none_iff_exists'.mp hne
      rw [hx] at h
      exact canon_some_ne_O x _ _ h
  · exact canon_affix_mem _ _ _

theorem convert_core_iobes_ne (seq : List Pair) (hne : seq ≠ []) :
    convert_core seq "IOBES" ≠ [] := by
  intro h
  have := convert_core_length seq "IOBES"
  rw [h] at this
  simp only [List.length_nil] at this
  exact hne (List.length_eq_zero.mp this.symm)

end Econll

namespace Econll

theorem list_ext_getD {α : Type} (d : α) (l₁ l₂ : List α)
    (hlen : l₁.length = l₂.length)
    (h : ∀ i, i < l₁.length → l₁.getD i d = l₂.getD i d) : l₁ = l₂ := by
  apply List.ext_getElem hlen
  intro i h1 h2
  have h3 := h i h1
  rwa [List.getD_eq_getElem _ d h1, List.getD_eq_getElem _ d h2] at h3

theorem pos_pair_canon (seq : List Pair) (i : Nat) :
    pos_pair (convert_core seq "IOBES") i =
      ((pos_pair seq i).1,
        canon_affix (pos_pair seq i).1 (pos_boc seq i) (pos_eoc seq i)) := by
  by_cases hi : i < seq.length
  · show (convert_core seq "IOBES").getD i vout = _
    rw [convert_core_getD seq _ i hi, scheme_fn_iobes]
  · rw [pos_pair_default _ i (by rw [convert_core_length]; omega),
      pos_pair_default seq i (by omega)]
    rfl

theorem eoc_eq_boc_next (seq : List Pair) (hv : ∀ p ∈ seq, valid_pair p)
    (i : Nat) (hi : i < seq.length) (hi1 : i + 1 < seq.length)
    (hx : (pos_pair seq i).1 ≠ none)
    (hy : (pos_pair seq (i + 1)).1 ≠ none) :
    pos_eoc seq i = pos_boc seq (i + 1) := by
  obtain ⟨x, hxx⟩ := Option.ne_none_iff_exists'.mp hx
  obtain ⟨y, hyy⟩ := Option.ne_none_iff_exists'.mp hy
  have hvi := hv _ (pos_pair_mem seq i hi)
  have hvj := hv _ (pos_pair_mem seq (i + 1) hi1)
  have hpaO : (pos_pair seq i).2 ≠ "O" := fun h => hx (hvi.1.mpr h)
  have hcaO : (pos_pair seq (i + 1)).2 ≠ "O" := fun h => hy (hvj.1.mpr h)
  have he := pos_eoc_eq seq i hi
  have hb := pos_boc_eq seq (i + 1) hi1
  rw [if_neg (by omega)] at hb
  have harith : i + 1 - 1 = i := by omega
  rw [harith] at hb
  rw [hxx, hyy] at he hb
  rw [he, hb, isa_boc_eq_isa_eoc x y _ _ hvi.2 hpaO hvj.2 hcaO]

theorem get_boc_canon (seq : List Pair) (hv : ∀ p ∈ seq, valid_pair p) :
    get_boc (convert_core seq "IOBES") = get_boc seq := by
  have hTlen := convert_core_length seq "IOBES"
  apply list_ext_getD false
  · rw [get_boc_length, get_boc_length, hTlen]
  · intro i h1
    have hi : i < seq.length := by rwa [get_boc_length, hTlen] at h1
    show pos_boc (convert_core seq "IOBES") i = pos_boc seq i
    rw [pos_boc_eq _ i (by rw [hTlen]; exact hi)]
    have hvi := hv _ (pos_pair_mem seq i hi)
    by_cases hlc : (pos_pair seq i).1 = none
    · -- outside current token on both sides
      have ho : (pos_pair seq i).2 = "O" := hvi.1.mp hlc
      have hTc : (pos_pair (convert_core seq "IOBES") i).2 = "O" := by
        rw [pos_pair_canon, hlc, canon_none]
      rw [hTc, isa_boc_oaffix]
      have hb := pos_boc_eq seq i hi
      rw [ho, isa_boc_oaffix] at hb
      exact hb.symm
    · obtain ⟨y, hy⟩ := Option.ne_none_iff_exists'.mp hlc
      have hcaO : (pos_pair seq i).2 ≠ "O" := fun h => hlc (hvi.1.mpr h)
      have hTc1 : (pos_pair (convert_core seq "IOBES") i).1 = some y := by
        rw [pos_pair_canon]
        exact hy
      have hTc2 : (pos_pair (convert_core seq "IOBES") i).2 =
          canon_affix (some y) (pos_boc seq i) (pos_eoc seq i) := by
        rw [pos_pair_canon, hy]
      by_cases hi0 : i = 0
      · subst hi0
        rw [if_pos rfl, hTc1, hTc2,
          show (vout : Pair).1 = none from rfl,
          show (vout : Pair).2 = "O" from rfl,
          isa_boc_start _ y _ (canon_some_ne_O y _ _)]
        have hb := pos_boc_eq seq 0 hi
        rw [if_pos rfl, hy,
          show (vout : Pair).1 = none from rfl,
          show (vout : Pair).2 = "O" from rfl,
          isa_boc_start _ y _ hcaO] at hb
        exact hb.symm
      · rw [if_neg hi0]
        have hi1 : i - 1 < seq.length := by omega
        have hvp := hv _ (pos_pair_mem seq (i - 1) hi1)
        by_cases hlp : (pos_pair seq (i - 1)).1 = none
        · -- outside previous token on both sides
          have hTp1 : (pos_pair (convert_core seq "IOBES") (i - 1)).1
              = none := by
            rw [pos_pair_canon]
            exact hlp
          have hTp2 : (pos_pair (convert_core seq "IOBES") (i - 1)).2
              = "O" := by
            rw [pos_pair_canon, hlp, canon_none]
          rw [hTp1, hTp2, hTc1, hTc2,
            isa_boc_start _ y _ (canon_some_ne_O y _ _)]
          have hb := pos_boc_eq seq i hi
          have ho : (pos_pair seq (i - 1)).2 = "O" := hvp.1.mp hlp
          rw [if_neg hi0, hlp, ho, hy, isa_boc_start _ y _ hcaO] at hb
          exact hb.symm
        · -- both labeled
          obtain ⟨x, hx⟩ := Option.ne_none_iff_exists'.mp hlp
          have hpaO : (pos_pair seq (i - 1)).2 ≠ "O" :=
            fun h => hlp (hvp.1.mpr h)
          have hTp1 : (pos_pair (convert_core seq "IOBES") (i - 1)).1
              = some x := by
            rw [pos_pair_canon]
            exact hx
          have hTp2 : (pos_pair (convert_core seq "IOBES") (i - 1)).2 =
              canon_affix (some x) (pos_boc seq (i - 1))
                (pos_eoc seq (i - 1)) := by
            rw [pos_pair_canon, hx]
          rw [hTp1, hTp2, hTc1, hTc2]
          have harith : i - 1 + 1 = i := by omega
          have hcoh : pos_eoc seq (i - 1) = pos_boc seq i := by
            have hlc2 : (pos_pair seq (i - 1 + 1)).1 ≠ none := by
              rw [harith]
              exact hlc
            have h5 := eoc_eq_boc_next seq hv (i - 1) hi1
              (by omega) hlp hlc2
            rwa [harith] at h5
          -- expand isa_boc on canonical pairs
          simp only [isa_boc]
          rw [Bool.or_false, canon_BS y]
          have h6 : (((canon_affix (some x) (pos_boc seq (i - 1))
              (pos_eoc seq (i - 1)) == "E") ||
              (canon_affix (some x) (pos_boc seq (i - 1))
                (pos_eoc seq (i - 1)) == "S")) ||
              (canon_affix (some x) (pos_boc seq (i - 1))
                (pos_eoc seq (i - 1)) == "O")) = pos_eoc seq (i - 1) := by
            rw [canon_O_false x, Bool.or_false]
            exact canon_ES x _ _
          rw [h6, canon_IE y]
          have e1 : (canon_affix (some y) (pos_boc seq i)
              (pos_eoc seq i) != "O") = true := by
            simp only [bne]
            rw [canon_O_false y]
            rfl
          rw [e1, Bool.and_true, hcoh]
          by_cases hd : x = y
          · subst hd
            simp only [bne_self_eq_false, Bool.false_or]
            cases h7 : pos_boc seq i <;> simp
          · have hb : pos_boc seq i = true := by
              have h8 := pos_boc_eq seq i hi
              rw [if_neg hi0, hx, hy,
                isa_boc_labels_ne (some x) (some y) _ _
                  (by simp [hd]) hcaO] at h8
              exact h8
            rw [hb]
            have hne : ((some x : Label) != some y) = true := by
              simp [bne, hd]
            rw [hne]
            simp

end Econll

namespace Econll

theorem get_eoc_canon (seq : List Pair) (hv : ∀ p ∈ seq, valid_pair p) :
    get_eoc (convert_core seq "IOBES") = get_eoc seq := by
  have hTlen := convert_core_length seq "IOBES"
  apply list_ext_getD false
  · rw [get_eoc_length, get_eoc_length, hTlen]
  · intro i h1
    have hi : i < seq.length := by rwa [get_eoc_length, hTlen] at h1
    show pos_eoc (convert_core seq "IOBES") i = pos_eoc seq i
    rw [pos_eoc_eq _ i (by rw [hTlen]; exact hi)]
    have hvi := hv _ (pos_pair_mem seq i hi)
    by_cases hlc : (pos_pair seq i).1 = none
    · have ho : (pos_pair seq i).2 = "O" := hvi.1.mp hlc
      have hTc2 : (pos_pair (convert_core seq "IOBES") i).2 = "O" := by
        rw [pos_pair_canon, hlc, canon_none]
      rw [hTc2, isa_eoc_oaffix]
      have hb := pos_eoc_eq seq i hi
      rw [ho, isa_eoc_oaffix] at hb
      exact hb.symm
    · obtain ⟨y, hy⟩ := Option.ne_none_iff_exists'.mp hlc
      have hcaO : (pos_pair seq i).2 ≠ "O" := fun h => hlc (hvi.1.mpr h)
      have hTc1 : (pos_pair (convert_core seq "IOBES") i).1 = some y := by
        rw [pos_pair_canon]
        exact hy
      have hTc2 : (pos_pair (convert_core seq "IOBES") i).2 =
          canon_affix (some y) (pos_boc seq i) (pos_eoc seq i) := by
        rw [pos_pair_canon, hy]
      by_cases hln : (pos_pair seq (i + 1)).1 = none
      · -- next token is outside (or the virtual end)
        have hno : (pos_pair seq (i + 1)).2 = "O" := by
          by_cases hnn : i + 1 < seq.length
          · exact (hv _ (pos_pair_mem seq (i + 1) hnn)).1.mp hln
          · rw [pos_pair_default seq (i + 1) (by omega)]
            rfl
        have hTn1 : (pos_pair (convert_core seq "IOBES") (i + 1)).1
            = none := by
          rw [pos_pair_canon]
          exact hln
        have hTn2 : (pos_pair (convert_core seq "IOBES") (i + 1)).2
            = "O" := by
          rw [pos_pair_canon, hln, canon_none]
        rw [hTc1, hTc2, hTn1, hTn2,
          isa_eoc_close y _ _ (canon_some_ne_O y _ _)]
        have hb := pos_eoc_eq seq i hi
        rw [hy, hln, hno, isa_eoc_close y _ _ hcaO] at hb
        exact hb.symm
      · -- next token labeled
        obtain ⟨z, hz⟩ := Option.ne_none_iff_exists'.mp hln
        have hnn : i + 1 < seq.length := by
          by_contra hge
          rw [pos_pair_default seq (i + 1) (by omega)] at hln
          exact hln rfl
        have hvn := hv _ (pos_pair_mem seq (i + 1) hnn)
        have hcnO : (pos_pair seq (i + 1)).2 ≠ "O" :=
          fun h => hln (hvn.1.mpr h)
        have hTn1 : (pos_pair (convert_core seq "IOBES") (i + 1)).1
            = some z := by
          rw [pos_pair_canon]
          exact hz
        have hTn2 : (pos_pair (convert_core seq "IOBES") (i + 1)).2 =
            canon_affix (some z) (pos_boc seq (i + 1))
              (pos_eoc seq (i + 1)) := by
          rw [pos_pair_canon, hz]
        rw [hTc1, hTc2, hTn1, hTn2]
        have hcoh : pos_eoc seq i = pos_boc seq (i + 1) :=
          eoc_eq_boc_next seq hv i hi hnn hlc hln
        simp only [isa_eoc]
        rw [Bool.or_false, canon_ES y]
        have h6 : (((canon_affix (some z) (pos_boc seq (i + 1))
            (pos_eoc seq (i + 1)) == "B") ||
            (canon_affix (some z) (pos_boc seq (i + 1))
              (pos_eoc seq (i + 1)) == "S")) ||
            (canon_affix (some z) (pos_boc seq (i + 1))
              (pos_eoc seq (i + 1)) == "O")) = pos_boc seq (i + 1) := by
          rw [canon_O_false z, Bool.or_false]
          exact canon_BS z _ _
        rw [h6, canon_BI y]
        have e1 : (canon_affix (some y) (pos_boc seq i)
            (pos_eoc seq i) != "O") = true := by
          simp only [bne]
          rw [canon_O_false y]
          rfl
        rw [e1, Bool.and_true, ← hcoh]
        by_cases hd : y = z
        · subst hd
          simp only [bne_self_eq_false, Bool.false_or]
          cases h7 : pos_eoc seq i <;> simp
        · have hb : pos_eoc seq i = true := by
            have h8 := pos_eoc_eq seq i hi
            rw [hy, hz,
              isa_eoc_labels_ne (some y) (some z) _ _
                (by simp [hd]) hcaO] at h8
            exact h8
          rw [hb]
          have hne : ((some y : Label) != some z) = true := by
            simp [bne, hd]
          rw [hne]
          simp

end Econll

namespace Econll

theorem alter_point (s : String) (table : List (Affix × Affix))
    (hI : dict_getD table "I" "I" = scheme_fn s "I")
    (hB : dict_getD table "B" "B" = scheme_fn s "B")
    (hE : dict_getD table "E" "E" = scheme_fn s "E")
    (hS : dict_getD table "S" "S" = scheme_fn s "S")
    (hO : dict_getD table "O" "O" = "O")
    (hOs : scheme_fn s "O" = "O")
    (p : Pair) (hvp : valid_pair p) (b e : Bool) :
    dict_getD (morphs_of table) (b, e, p.1.isSome) p.2
      = scheme_fn s (canon_affix p.1 b e) := by
  by_cases hn : p.1 = none
  · have ho : p.2 = "O" := hvp.1.mp hn
    rw [hn, ho, canon_none, hOs]
    cases b <;> cases e
    · exact hO
    · rfl
    · rfl
    · rfl
  · obtain ⟨x, hx⟩ := Option.ne_none_iff_exists'.mp hn
    rw [hx]
    cases b <;> cases e
    · exact hI
    · exact hE
    · exact hB
    · exact hS

theorem alter_eq_map (tokens : List Pair) (hne : tokens ≠ []) (s : String)
    (hsfx : (s.data.getLast? == some (Char.ofNat 49)) = false)
    (table : List (Affix × Affix))
    (htab : get_scheme s = some table)
    (hb1 : (s == "IOB1") = false) (he1 : (s == "IOE1") = false) :
    alter tokens s = some
      ((zip3 tokens (get_boc tokens) (get_eoc tokens)).map
        (fun x => (x.1.1, dict_getD (morphs_of table)
          (x.2.1, x.2.2, x.1.1.isSome) x.1.2))) := by
  cases tokens with
  | nil => exact absurd rfl hne
  | cons t ts =>
      simp only [alter, hsfx, Bool.false_eq_true, if_false, htab, hb1, he1]

theorem alter_eq_core (tokens : List Pair) (hv : ∀ p ∈ tokens, valid_pair p)
    (s : String) (table : List (Affix × Affix))
    (hI : dict_getD table "I" "I" = scheme_fn s "I")
    (hB : dict_getD table "B" "B" = scheme_fn s "B")
    (hE : dict_getD table "E" "E" = scheme_fn s "E")
    (hS : dict_getD table "S" "S" = scheme_fn s "S")
    (hO : dict_getD table "O" "O" = "O")
    (hOs : scheme_fn s "O" = "O") :
    ((zip3 tokens (get_boc tokens) (get_eoc tokens)).map
      (fun x => (x.1.1, dict_getD (morphs_of table)
        (x.2.1, x.2.2, x.1.1.isSome) x.1.2)))
      = convert_core tokens s := by
  have hzl : (zip3 tokens (get_boc tokens) (get_eoc tokens)).length
      = tokens.length := by
    simp [zip3_length, get_boc_length, get_eoc_length]
  apply list_ext_getD vout
  · rw [List.length_map, hzl, convert_core_length]
  · intro i h1
    have hi : i < tokens.length := by rwa [List.length_map, hzl] at h1
    rw [List.getD_eq_getElem _ vout h1, List.getElem_map,
      zip3_getElem tokens (get_boc tokens) (get_eoc tokens) i
        (by rwa [hzl]) hi (by rw [get_boc_length]; exact hi)
        (by rw [get_eoc_length]; exact hi)]
    simp only [List.get_eq_getElem]
    rw [convert_core_getD tokens s i hi]
    have hp : tokens[i] = pos_pair tokens i :=
      (List.getD_eq_getElem tokens vout hi).symm
    have hbb : i < (get_boc tokens).length := by
      rw [get_boc_length]
      exact hi
    have heb : i < (get_eoc tokens).length := by
      rw [get_eoc_length]
      exact hi
    have hb : (get_boc tokens)[i] = pos_boc tokens i :=
      (List.getD_eq_getElem _ false hbb).symm
    have he : (get_eoc tokens)[i] = pos_eoc tokens i :=
      (List.getD_eq_getElem _ false heb).symm
    rw [hp, hb, he]
    rw [alter_point s table hI hB hE hS hO hOs (pos_pair tokens i)
      (hv _ (pos_pair_mem tokens i hi)) (pos_boc tokens i)
      (pos_eoc tokens i)]

theorem alter_supported (tokens : List Pair) (hne : tokens ≠ [])
    (hv : ∀ p ∈ tokens, valid_pair p) (s : String)
    (hs : s ∈ supported_schemes) :
    alter tokens s = some (convert_core tokens s) := by
  fin_cases hs
  · rw [alter_eq_map tokens hne "IO" (by decide)
        ([("I", "I"), ("O", "O"), ("B", "I"), ("E", "I"), ("S", "I")] : List (Affix × Affix)) rfl (by decide) (by decide),
      alter_eq_core tokens hv "IO"
        ([("I", "I"), ("O", "O"), ("B", "I"), ("E", "I"), ("S", "I")] : List (Affix × Affix)) rfl rfl rfl rfl rfl rfl]
  · rw [alter_eq_map tokens hne "IOB" (by decide)
        ([("I", "I"), ("O", "O"), ("B", "B"), ("E", "I"), ("S", "B")] : List (Affix × Affix)) rfl (by decide) (by decide),
      alter_eq_core tokens hv "IOB"
        ([("I", "I"), ("O", "O"), ("B", "B"), ("E", "I"), ("S", "B")] : List (Affix × Affix)) rfl rfl rfl rfl rfl rfl]
  · rw [alter_eq_map tokens hne "IOE" (by decide)
        ([("I", "I"), ("O", "O"), ("B", "I"), ("E", "E"), ("S", "E")] : List (Affix × Affix)) rfl (by decide) (by decide),
      alter_eq_core tokens hv "IOE"
        ([("I", "I"), ("O", "O"), ("B", "I"), ("E", "E"), ("S", "E")] : List (Affix × Affix)) rfl rfl rfl rfl rfl rfl]
  · rw [alter_eq_map tokens hne "IOBE" (by decide)
        ([("I", "I"), ("O", "O"), ("B", "B"), ("E", "E"), ("S", "B")] : List (Affix × Affix)) rfl (by decide) (by decide),
      alter_eq_core tokens hv "IOBE"
        ([("I", "I"), ("O", "O"), ("B", "B"), ("E", "E"), ("S", "B")] : List (Affix × Affix)) rfl rfl rfl rfl rfl rfl]
  · rw [alter_eq_map tokens hne "IOBES" (by decide)
        ([("I", "I"), ("O", "O"), ("B", "B"), ("E", "E"), ("S", "S")] : List (Affix × Affix)) rfl (by decide) (by decide),
      alter_eq_core tokens hv "IOBES"
        ([("I", "I"), ("O", "O"), ("B", "B"), ("E", "E"), ("S", "S")] : List (Affix × Affix)) rfl rfl rfl rfl rfl rfl]

end Econll

namespace Econll

theorem convert_core_canon (seq : List Pair)
    (hv : ∀ p ∈ seq, valid_pair p) (s : String) :
    convert_core (convert_core seq "IOBES") s = convert_core seq s := by
  apply list_ext_getD vout
  · rw [convert_core_length, convert_core_length, convert_core_length]
  · intro i h1
    have hi : i < seq.length := by
      rwa [convert_core_length, convert_core_length] at h1
    rw [convert_core_getD _ s i (by rw [convert_core_length]; exact hi),
      convert_core_getD seq s i hi]
    have hl : (pos_pair (convert_core seq "IOBES") i).1
        = (pos_pair seq i).1 := by rw [pos_pair_canon]
    have hb : pos_boc (convert_core seq "IOBES") i = pos_boc seq i := by
      unfold pos_boc
      rw [get_boc_canon seq hv]
    have he : pos_eoc (convert_core seq "IOBES") i = pos_eoc seq i := by
      unfold pos_eoc
      rw [get_eoc_canon seq hv]
    rw [hl, hb, he]

end Econll

/-- **C1.** Corrected chunk-level round-trip: for every non-empty sequence
of valid label-affix pairs (label absent iff affix is the outside marker,
affix from IOBES) and every supported target scheme S, expanding the chunks
extracted by the boundary-flag walk over a sequence of the original length
equals scheme conversion: `xcode(get_chunks(seq), len(seq), S) ==
convert(seq, S)`.  The empty sequence is excluded: there `xcode` raises for
any S other than IOBES (see the counterexample) while `convert` returns the
empty list. -/
theorem C1_chunk_roundtrip (seq : List Econll.Pair) (hne : seq ≠ [])
    (hv : ∀ p ∈ seq, Econll.valid_pair p) (s : String)
    (hs : s ∈ Econll.supported_schemes) :
    Econll.xcode (Econll.get_chunks seq) (some seq.length) s
      = Econll.convert seq s true := by
  have hn : seq.length ≠ 0 := fun h => hne (List.length_eq_zero.mp h)
  have hn0 : (seq.length == 0) = false := by
    rw [beq_eq_false_iff_ne]
    exact hn
  simp only [Econll.xcode, hn0, Bool.false_eq_true, if_false]
  rw [Econll.get_chunks_splice_main seq hv]
  by_cases hio : s = "IOBES"
  · subst hio
    have ht : (("IOBES" : String) == "IOBES") = true := rfl
    rw [ht]
    simp only [if_true]
    exact (Econll.convert_supported seq "IOBES" (by decide)).symm
  · have hio' : (s == "IOBES") = false := beq_eq_false_iff_ne.mpr hio
    rw [hio']
    simp only [Bool.false_eq_true, if_false]
    rw [Econll.alter_supported _ (Econll.convert_core_iobes_ne seq hne)
      (Econll.convert_core_iobes_valid seq hv) s hs,
      Econll.convert_core_canon seq hv s,
      Econll.convert_supported seq s hs]

/-- C1 counterexample to the literal claim: on the empty sequence (trivially
valid under any scheme) the round-trip fails for target scheme IOB:
`xcode([], 0, "IOB")` calls `alter([], "IOB")`, whose
`all(isinstance(x, str))` test holds vacuously, so it calls `parse([])`,
which raises in `check_scheme`; `convert([], "IOB")` returns `[]`. -/
theorem C1_counterexample :
    Econll.xcode (Econll.get_chunks ([] : List Econll.Pair))
      (some ([] : List Econll.Pair).length) "IOB" = none ∧
    Econll.convert ([] : List Econll.Pair) "IOB" true = some [] := by
  constructor
  · rfl
  · rfl

/-- C1 witness: the corrected round-trip at a concrete valid sequence and
scheme. -/
theorem C1_chunk_roundtrip_witness :
    (([((some "X" : Econll.Label), "B"), (some "X", "E")] :
        List Econll.Pair) ≠ []) ∧
    (∀ p ∈ ([((some "X" : Econll.Label), "B"), (some "X", "E")] :
        List Econll.Pair), Econll.valid_pair p) ∧
    ("IOB" ∈ Econll.supported_schemes) ∧
    Econll.xcode
        (Econll.get_chunks
          [((some "X" : Econll.Label), "B"), (some "X", "E")])
        (some 2) "IOB"
      = Econll.convert
          [((some "X" : Econll.Label), "B"), (some "X", "E")] "IOB" true :=
  ⟨by decide,
    by intro p hp; fin_cases hp <;> exact ⟨by decide, by decide⟩,
    by decide,
    C1_chunk_roundtrip [((some "X" : Econll.Label), "B"), (some "X", "E")]
      (by decide)
      (by intro p hp; fin_cases hp <;> exact ⟨by decide, by decide⟩)
      "IOB" (by decide)⟩
